import Mathlib

/-!
# DriverFramework: clock helpers, work items, dispatcher and work manager

A shallow embedding of `framework/src/DriverFramework.cpp`.

* `uint64_t`, `unsigned long` (LP64) and `uint32_t` values are natural numbers
  reduced modulo `2^64` resp. `2^32` wherever the C++ arithmetic wraps.
* `time_t` and `long` (the fields of `timespec`) are integers; every conversion
  to `uint64_t` that the source performs is explicit (`toU64`), and so is the
  conversion of a `uint64_t` sum back to the 64-bit signed type (`toS64`).
* The process-wide state (`g_timestart`, `g_work_items`, the dispatcher's
  `m_work`, the static counter of `WorkMgr::create`) is one record, `World`,
  passed explicitly.
* A `WorkItem *` held by the dispatcher points into the node of
  `g_work_items` that stores the item; it is represented by the key of that
  node, so a pointer whose node was erased is a key without entry.
* The realtime clock is a function from the number of readings taken so far
  to the `timespec` returned by that reading.
* Callbacks are known by number; what a callback does to the framework is a
  list of `WorkMgr` calls, given by a behaviour function.
* `WorkHandle` is declared in `DriverFramework.hpp`; its width in bits is the
  parameter `w` of `WorkMgr.create` and of everything that can call it.
* `g_work_items` and `HRTWorkQueue::m_instance` are taken to be set up
  (`Framework::initialize` has run).
-/

namespace DriverFramework

/-- The modulus of `uint64_t` (and of `unsigned long` on LP64): `2^64`. -/
def U64 : Nat := 18446744073709551616

/-- The modulus of `unsigned int` and `uint32_t`: `2^32`. -/
def U32 : Nat := 4294967296

/-- The value `~0x0UL`, all 64 bits set. -/
def ULONG_MAX : Nat := 18446744073709551615

/-- Conversion of a signed value (`time_t`, `long`) to `uint64_t`. -/
def toU64 (x : Int) : Nat := (x % 18446744073709551616).toNat

/-- Conversion of a `uint64_t` value to a signed 64-bit type (`time_t`, `long`
on LP64): values from `2^63` on come out negative. -/
def toS64 (n : Nat) : Int :=
  if n % 18446744073709551616 < 9223372036854775808 then
    ((n % 18446744073709551616 : Nat) : Int)
  else ((n % 18446744073709551616 : Nat) : Int) - 18446744073709551616

/-- Subtraction on `uint64_t`: `a - b` wraps modulo `2^64`. -/
def sub64 (a b : Nat) : Nat := (a % U64 + (U64 - b % U64)) % U64

/-- Addition on `uint64_t`: `a + b` wraps modulo `2^64`. -/
def add64 (a b : Nat) : Nat := (a + b) % U64

/-- Multiplication on `uint64_t`: `a * b` wraps modulo `2^64`. -/
def mul64 (a b : Nat) : Nat := (a * b) % U64

/-- The `struct timespec` of the platform. -/
structure Timespec where
  tv_sec : Int
  tv_nsec : Int
  deriving DecidableEq, Repr

/-- `TSToABSTime`: microseconds of a `timespec`, computed on `uint64_t`. The
division `ts->tv_nsec / 1000` is the division of `long`, which truncates. -/
def TSToABSTime (ts : Timespec) : Nat :=
  add64 (mul64 (toU64 ts.tv_sec) 1000000) (toU64 (Int.tdiv ts.tv_nsec 1000))

/-- `DriverFramework::offsetTimeToAbsoluteTime` for a given `g_timestart`. -/
def offsetTimeToAbsoluteTime (g_timestart offset_time : Nat) : Timespec :=
  let abs_time := add64 offset_time g_timestart
  { tv_sec := ((abs_time / 1000000 : Nat) : Int),
    tv_nsec := ((mul64 (abs_time % 1000000) 1000 : Nat) : Int) }

/-- `DriverFramework::absoluteTimeInFuture`: `ts` is what `clockGetRealtime`
stored, `time_ms` the argument. `nsecs` and `secs` are `uint64_t`; in
`ts.tv_sec += secs` the sum is taken on `uint64_t` and converted back to
`time_t`, and `nsecs - secs*1000000000` is converted to `long`. -/
def absoluteTimeInFuture (ts : Timespec) (time_ms : Nat) : Timespec :=
  let nsecs := add64 (toU64 ts.tv_nsec) (mul64 time_ms 1000000)
  let secs := nsecs / 1000000000
  { tv_sec := toS64 (add64 (toU64 ts.tv_sec) secs),
    tv_nsec := toS64 (sub64 nsecs (mul64 secs 1000000000)) }

/-! ## WorkItem -/

/-- The class `WorkItem`. `m_arg` and `m_callback` are pointers, kept as
numbers; the statistics are `unsigned long`. -/
structure WorkItem where
  m_arg : Nat
  m_queue_time : Nat
  m_callback : Nat
  m_delay : Nat
  m_handle : Nat
  m_last : Nat
  m_min : Nat
  m_max : Nat
  m_total : Nat
  m_count : Nat
  deriving DecidableEq, Repr

/-- `WorkItem::resetStats`. -/
def WorkItem.resetStats (it : WorkItem) : WorkItem :=
  { it with m_last := ULONG_MAX, m_min := ULONG_MAX, m_max := 0, m_total := 0, m_count := 0 }

/-- The constructor `WorkItem(callback, arg, delay, handle)`. -/
def WorkItem.new (callback arg delay handle : Nat) : WorkItem :=
  WorkItem.resetStats
    { m_arg := arg, m_queue_time := 0, m_callback := callback, m_delay := delay,
      m_handle := handle, m_last := 0, m_min := 0, m_max := 0, m_total := 0, m_count := 0 }

/-- `WorkItem::updateStats(unsigned int cur_usec)`. The argument the caller
passes is converted to the parameter's type, `unsigned int`, on entry. -/
def WorkItem.updateStats (it : WorkItem) (now : Nat) : WorkItem :=
  let cur_usec := now % U32
  let delay :=
    if it.m_last = ULONG_MAX then sub64 cur_usec it.m_queue_time else sub64 cur_usec it.m_last
  let m_min := if delay < it.m_min then delay else it.m_min
  let m_max := if delay > it.m_max then delay else it.m_max
  { it with
    m_min := m_min,
    m_max := m_max,
    m_total := add64 it.m_total delay,
    m_count := add64 it.m_count 1,
    m_last := cur_usec }

/-- The local variable `delay` of `WorkItem::updateStats` in the call
`updateStats(now)`: the delay that call records. -/
def WorkItem.observedDelay (it : WorkItem) (now : Nat) : Nat :=
  if it.m_last = ULONG_MAX then sub64 (now % U32) it.m_queue_time
  else sub64 (now % U32) it.m_last

/-- The item after the calls `updateStats(a)` for the arguments `a` of `args`,
in order. -/
def WorkItem.updateAll : WorkItem → List Nat → WorkItem
  | it, [] => it
  | it, a :: args => WorkItem.updateAll (it.updateStats a) args

/-- The delays these calls record, in order. -/
def WorkItem.recordedDelays : WorkItem → List Nat → List Nat
  | _, [] => []
  | it, a :: args => it.observedDelay a :: WorkItem.recordedDelays (it.updateStats a) args

/-! ## The work map `std::map<WorkHandle, WorkItem>` -/

/-- The map `g_work_items` as an association list. -/
abbrev WorkMap := List (Nat × WorkItem)

/-- `std::map::find`: the item stored under `h`, if any. -/
def mapFind : WorkMap → Nat → Option WorkItem
  | [], _ => none
  | (k, v) :: m, h => if k = h then some v else mapFind m h

/-- `std::map::erase` of the node with key `h`. -/
def mapErase : WorkMap → Nat → WorkMap
  | [], _ => []
  | (k, v) :: m, h => if k = h then mapErase m h else (k, v) :: mapErase m h

/-- `std::map::insert`: stores `v` under `k` unless the key is taken. -/
def mapInsert (m : WorkMap) (k : Nat) (v : WorkItem) : WorkMap :=
  match mapFind m k with
  | some _ => m
  | none => m ++ [(k, v)]

/-- A write through a `WorkItem *`: the item stored under `h` becomes `f` of it. -/
def mapModify : WorkMap → Nat → (WorkItem → WorkItem) → WorkMap
  | [], _, _ => []
  | (k, v) :: m, h, f => if k = h then (k, f v) :: mapModify m h f else (k, v) :: mapModify m h f

/-! ## Process-wide state -/

/-- The static variables of `DriverFramework.cpp`, the dispatcher's list, the
number of clock readings taken and the log of callback invocations
(callback, first argument, second argument). -/
structure World where
  i : Nat
  g_timestart : Nat
  reads : Nat
  g_work_items : WorkMap
  m_work : List Nat
  calls : List (Nat × Nat × Nat)
  deriving DecidableEq, Repr

/-- The state at start-up: `static WorkHandle i=1000`, `g_timestart = 0`, an
empty map (after `WorkMgr::initialize`) and an empty dispatcher list. -/
def World.init : World :=
  { i := 1000, g_timestart := 0, reads := 0, g_work_items := [], m_work := [], calls := [] }

/-- `DriverFramework::offsetTime`: the value returned and the state after. -/
def offsetTime (clock : Nat → Timespec) (st : World) : Nat × World :=
  let ts := clock st.reads
  let g := if st.g_timestart = 0 then TSToABSTime ts else st.g_timestart
  (sub64 (TSToABSTime ts) g, { st with g_timestart := g, reads := st.reads + 1 })

/-! ## WorkMgr and HRTWorkQueue::scheduleWorkItem -/

/-- `HRTWorkQueue::scheduleWorkItem(item)`, `item` pointing to the node `ref`. -/
def HRTWorkQueue.scheduleWorkItem (clock : Nat → Timespec) (ref : Nat) (st : World) : World :=
  let st1 := { st with m_work := st.m_work ++ [ref] }
  let r := offsetTime clock st1
  { r.2 with g_work_items := mapModify r.2.g_work_items ref (fun it => { it with m_queue_time := r.1 }) }

/-- `WorkMgr::create(cb, arg, delay)` for a `WorkHandle` of `w` bits: the
handle returned and the state after. -/
def WorkMgr.create (w : Nat) (cb arg delay : Nat) (st : World) : Nat × World :=
  let i := (st.i + 1) % 2 ^ w
  (i, { st with i := i, g_work_items := mapInsert st.g_work_items i (WorkItem.new cb arg delay i) })

/-- `WorkMgr::destroy(handle)`: the caller's handle variable and the state after. -/
def WorkMgr.destroy (handle : Nat) (st : World) : Nat × World :=
  match mapFind st.g_work_items handle with
  | some _ => (0, { st with g_work_items := mapErase st.g_work_items handle })
  | none => (0, st)

/-- `WorkMgr::schedule(handle)`: the value returned and the state after. -/
def WorkMgr.schedule (clock : Nat → Timespec) (handle : Nat) (st : World) : Bool × World :=
  match mapFind st.g_work_items handle with
  | some _ => (true, HRTWorkQueue.scheduleWorkItem clock handle st)
  | none => (false, st)

/-! ## Client calls and callbacks -/

/-- A call into `WorkMgr`, made by client code or from inside a callback. -/
inductive Op where
  | create (cb arg delay : Nat)
  | destroy (handle : Nat)
  | schedule (handle : Nat)
  deriving DecidableEq, Repr

/-- The state after one `WorkMgr` call, for a `WorkHandle` of `w` bits. -/
def Op.run (w : Nat) (clock : Nat → Timespec) : Op → World → World
  | Op.create cb arg delay, st => (WorkMgr.create w cb arg delay st).2
  | Op.destroy handle, st => (WorkMgr.destroy handle st).2
  | Op.schedule handle, st => (WorkMgr.schedule clock handle st).2

/-- The state after a sequence of `WorkMgr` calls. -/
def runOps (w : Nat) (clock : Nat → Timespec) : List Op → World → World
  | [], st => st
  | op :: ops, st => runOps w clock ops (Op.run w clock op st)

/-- The number of `WorkMgr::create` calls in a sequence of calls. -/
def countCreates : List Op → Nat
  | [] => 0
  | Op.create _ _ _ :: ops => countCreates ops + 1
  | _ :: ops => countCreates ops

/-- The handles returned by the `WorkMgr::create` calls of a sequence of
calls started in `st`, in the order of the calls. -/
def issuedHandles (w : Nat) (clock : Nat → Timespec) : List Op → World → List Nat
  | [], _ => []
  | Op.create cb arg delay :: ops, st =>
      (WorkMgr.create w cb arg delay st).1 ::
        issuedHandles w clock ops (WorkMgr.create w cb arg delay st).2
  | op :: ops, st => issuedHandles w clock ops (Op.run w clock op st)

/-- What callbacks do: the `WorkMgr` calls made by callback `cb` when it is
invoked with `(arg, handle)`. -/
abbrev Behaviour := Nat → Nat → Nat → List Op

/-- The call `cb(arg, handle)`: it is logged, then its `WorkMgr` calls run. -/
def invoke (w : Nat) (clock : Nat → Timespec) (beh : Behaviour) (cb arg handle : Nat)
    (st : World) : World :=
  runOps w clock (beh cb arg handle) { st with calls := st.calls ++ [(cb, arg, handle)] }

/-! ## HRTWorkQueue::process -/

/-- The local variables of one pass of the outer loop of
`HRTWorkQueue::process`: `work_itr` is the position `pos` in `m_work`. -/
structure Scan where
  world : World
  pos : Nat
  next : Nat
  now : Nat
  deriving DecidableEq, Repr

/-- How a bounded run of a loop ends. -/
inductive Run (α : Type) where
  | done (a : α)
  | undefined
  | outOfFuel
  deriving DecidableEq, Repr

/-- The state in which the callback of a due item is invoked: `st` is the
state after `now = offsetTime()`, and `updateStats(now)` has been applied to
the item `ref` points to. -/
def HRTWorkQueue.dequeued (ref now : Nat) (st : World) : World :=
  { st with g_work_items := mapModify st.g_work_items ref (fun it => it.updateStats now) }

/-- The state when the callback of the due item `item` (read before
`updateStats`) returns, before `m_work.erase(work_itr)`. -/
def HRTWorkQueue.called (w : Nat) (clock : Nat → Timespec) (beh : Behaviour)
    (ref now : Nat) (item : WorkItem) (st : World) : World :=
  invoke w clock beh (item.updateStats now).m_callback (item.updateStats now).m_arg
    (item.updateStats now).m_handle (HRTWorkQueue.dequeued ref now st)

/-- One pass of the body of the inner `while` loop of `HRTWorkQueue::process`.
`none`: the body dereferences `end()` or a pointer whose item was destroyed. -/
def HRTWorkQueue.visit (w : Nat) (clock : Nat → Timespec) (beh : Behaviour) (s : Scan) :
    Option Scan :=
  match s.world.m_work[s.pos]? with
  | none => none
  | some ref =>
    let r := offsetTime clock s.world
    match mapFind r.2.g_work_items ref with
    | none => none
    | some item =>
      let elapsed := sub64 r.1 item.m_queue_time
      if elapsed ≥ item.m_delay then
        let st3 := HRTWorkQueue.called w clock beh ref r.1 item r.2
        some { world := { st3 with m_work := st3.m_work.eraseIdx s.pos },
               pos := s.pos, next := s.next, now := r.1 }
      else
        let remaining := sub64 item.m_delay elapsed
        some { world := r.2, pos := s.pos + 1,
               next := if remaining < s.next then remaining else s.next, now := r.1 }

/-- The inner `while (work_itr != m_work.end())` loop, at most `fuel` passes. -/
def HRTWorkQueue.scan (w : Nat) (clock : Nat → Timespec) (beh : Behaviour) :
    Nat → Scan → Run Scan
  | 0, s => if s.pos < s.world.m_work.length then Run.outOfFuel else Run.done s
  | fuel + 1, s =>
    if s.pos < s.world.m_work.length then
      match HRTWorkQueue.visit w clock beh s with
      | none => Run.undefined
      | some s1 => HRTWorkQueue.scan w clock beh fuel s1
    else Run.done s

/-- The state of the inner loop after its first `k` passes; `none` when one
of them is undefined. -/
def HRTWorkQueue.passes (w : Nat) (clock : Nat → Timespec) (beh : Behaviour) :
    Nat → Scan → Option Scan
  | 0, s => some s
  | k + 1, s => (HRTWorkQueue.passes w clock beh k s).bind (HRTWorkQueue.visit w clock beh)

/-- The local variables when the inner loop starts: `next = 10000000`,
`work_itr = m_work.begin()`, `now = offsetTime()`. -/
def HRTWorkQueue.scanStart (clock : Nat → Timespec) (st : World) : Scan :=
  { world := (offsetTime clock st).2, pos := 0, next := 10000000, now := (offsetTime clock st).1 }

/-- One pass of the outer loop of `HRTWorkQueue::process` up to the timed
wait: the state and the deadline handed to `pthread_cond_timedwait`. -/
def HRTWorkQueue.process (w : Nat) (clock : Nat → Timespec) (beh : Behaviour) (fuel : Nat)
    (st : World) : Run (World × Timespec) :=
  match HRTWorkQueue.scan w clock beh fuel (HRTWorkQueue.scanStart clock st) with
  | Run.done s =>
      Run.done (s.world, offsetTimeToAbsoluteTime s.world.g_timestart (add64 s.now s.next))
  | Run.undefined => Run.undefined
  | Run.outOfFuel => Run.outOfFuel

/-- Every stored work item has a delay that is a value of its type,
`uint32_t`. -/
def typedDelays (m : WorkMap) : Prop :=
  ∀ kv ∈ m, kv.2.m_delay < U32

/-- Every `WorkMgr::create` call a callback makes passes a delay that is a
`uint32_t` value. -/
def typedCreates (beh : Behaviour) : Prop :=
  ∀ cb arg handle c a d, Op.create c a d ∈ beh cb arg handle → d < U32

/-- In the scan that starts with the local variables `s0`, some pass of the
inner loop had the iterator at position `p`, on the entry `ref`, found its
item not due, and computed `remaining = m_delay - elapsed = r`. -/
def HRTWorkQueue.keptAt (w : Nat) (clock : Nat → Timespec) (beh : Behaviour) (s0 : Scan)
    (p ref r : Nat) : Prop :=
  ∃ j sj item, HRTWorkQueue.passes w clock beh j s0 = some sj ∧ sj.pos = p ∧
    sj.world.m_work[p]? = some ref ∧ mapFind sj.world.g_work_items ref = some item ∧
    sub64 (offsetTime clock sj.world).1 item.m_queue_time < item.m_delay ∧
    r = item.m_delay - sub64 (offsetTime clock sj.world).1 item.m_queue_time

/-! ## Framework::initialize -/

/-- `HRTWorkQueue::initialize`: `allocated` says whether `new` returned an
object, the other arguments are what `pthread_mutex_init`, `setRealtimeSched`
and `pthread_create` return. -/
def HRTWorkQueue.initialize (allocated : Bool) (mutex_init sched create : Int) : Int :=
  if allocated = false then 1
  else if mutex_init ≠ 0 then 2
  else if sched ≠ 0 then 3
  else if create ≠ 0 then 4
  else 0

/-- `WorkMgr::initialize`. -/
def WorkMgr.initialize : Int := 0

/-- The three stages of `Framework::initialize`. -/
inductive Stage where
  | HRTWorkQueue
  | DevMgr
  | WorkMgr
  deriving DecidableEq, Repr

/-- `Framework::initialize`: `hrt`, `dev` and `work` are what the stages
return when they are run; the result is the value returned and the stages
that were run, in order. -/
def Framework.initialize (hrt dev work : Int) : Int × List Stage :=
  let ret := hrt
  if ret < 0 then (ret, [Stage.HRTWorkQueue])
  else
    let ret := dev
    if ret < 0 then (ret - 10, [Stage.HRTWorkQueue, Stage.DevMgr])
    else
      let ret := work
      if ret < 0 then (ret - 20, [Stage.HRTWorkQueue, Stage.DevMgr, Stage.WorkMgr])
      else (0, [Stage.HRTWorkQueue, Stage.DevMgr, Stage.WorkMgr])

/-! ## Concrete inputs used by the examples below -/

/-- A clock that starts at 1 700 000 000 s and gains 150 µs per reading. -/
def exampleClock : Nat → Timespec :=
  fun n => { tv_sec := 1700000000 + ((150000 * n / 1000000000 : Nat) : Int),
             tv_nsec := ((150000 * n % 1000000000 : Nat) : Int) }

/-- A client that `n` times creates a work item and destroys it again; `h` is
the handle the first `create` returns. -/
def churn : Nat → Nat → List Op
  | _, 0 => []
  | h, n + 1 => Op.create 7 8 100 :: Op.destroy h :: churn (h + 1) n

/-- Callbacks that make no `WorkMgr` call. -/
def quietCallbacks : Behaviour := fun _ _ _ => []

/-- Callbacks that re-schedule the item they were invoked for, as the
`DevObj` measure callback does. -/
def reschedulingCallbacks : Behaviour := fun _ _ handle => [Op.schedule handle]

/-- The state after `create(7, 8, 100)` returned 1001 and `schedule(1001)`
queued the item. -/
def scheduledWorld : World :=
  runOps 32 exampleClock [Op.create 7 8 100, Op.schedule 1001] World.init

/-- An item queued at 4 294 967 196 µs, 100 µs before the clock passes `2^32` µs,
with freshly reset statistics. -/
def lateItem : WorkItem :=
  { WorkItem.new 7 8 100 1001 with m_queue_time := 4294967196 }

/-- The local variables of `HRTWorkQueue::process` when the inner loop starts
on `scheduledWorld`: the iterator is at the only entry. -/
def dueScan : Scan :=
  HRTWorkQueue.scanStart exampleClock scheduledWorld

/-- The item `dueScan` finds at the iterator: queued at 0 µs with a delay of
100 µs. -/
def dueItem : WorkItem :=
  WorkItem.new 7 8 100 1001

/-- The state after two items were created and queued: item 1001 (delay
100 µs, queued at 0 µs) and item 1002 (delay 1000 µs, queued at 150 µs). -/
def twoItemWorld : World :=
  runOps 32 exampleClock
    [Op.create 7 8 100, Op.create 7 9 1000, Op.schedule 1001, Op.schedule 1002] World.init

/-- The local variables of `HRTWorkQueue::process` when the inner loop starts
on `twoItemWorld`. -/
def twoItemScan : Scan :=
  HRTWorkQueue.scanStart exampleClock twoItemWorld

/-- The state of the inner loop started on `twoItemScan` after its first pass
(callbacks making no `WorkMgr` call). -/
def twoItemScanAfterOne : Scan :=
  (HRTWorkQueue.passes 32 exampleClock quietCallbacks 1 twoItemScan).getD twoItemScan

/-- The second item of `twoItemScan`. -/
def secondItem : WorkItem :=
  { WorkItem.new 7 9 1000 1002 with m_queue_time := 150 }

/-- The local variables when the inner loop started on `twoItemWorld` ends
(callbacks making no `WorkMgr` call). -/
def twoItemScanEnd : Scan :=
  match HRTWorkQueue.scan 32 exampleClock quietCallbacks 2 twoItemScan with
  | Run.done s => s
  | _ => twoItemScan

/-! ## Lemmas on the work map -/

theorem mapFind_erase_self (m : WorkMap) (h : Nat) : mapFind (mapErase m h) h = none := by
  induction m with
  | nil => rfl
  | cons kv m ih =>
    obtain ⟨k, v⟩ := kv
    by_cases hk : k = h
    · simp [mapErase, hk, ih]
    · simp [mapErase, mapFind, hk, ih]

theorem mapFind_erase_ne (m : WorkMap) (h k : Nat) (hne : k ≠ h) :
    mapFind (mapErase m h) k = mapFind m k := by
  induction m with
  | nil => rfl
  | cons kv m ih =>
    obtain ⟨k1, v⟩ := kv
    by_cases hk : k1 = h
    · subst hk
      have hk1 : ¬ k1 = k := fun e => hne e.symm
      simp [mapErase, mapFind, ih, hk1]
    · by_cases hkk : k1 = k
      · subst hkk
        simp [mapErase, mapFind, hk]
      · simp [mapErase, mapFind, hk, hkk, ih]

theorem mapErase_absent (m : WorkMap) (h : Nat) (habs : mapFind m h = none) :
    mapErase m h = m := by
  induction m with
  | nil => rfl
  | cons kv m ih =>
    obtain ⟨k, v⟩ := kv
    by_cases hk : k = h
    · simp [mapFind, hk] at habs
    · simp [mapFind, hk] at habs
      simp [mapErase, hk, ih habs]

theorem mapFind_append (m : WorkMap) (k h : Nat) (v : WorkItem) :
    mapFind (m ++ [(k, v)]) h =
      match mapFind m h with
      | some x => some x
      | none => if k = h then some v else none := by
  induction m with
  | nil => simp [mapFind]
  | cons kv m ih =>
    obtain ⟨k1, v1⟩ := kv
    by_cases hk : k1 = h
    · simp [mapFind, hk]
    · simp [mapFind, hk, ih]

theorem mapFind_insert_self (m : WorkMap) (k : Nat) (v : WorkItem) (habs : mapFind m k = none) :
    mapFind (mapInsert m k v) k = some v := by
  simp [mapInsert, habs, mapFind_append]

theorem mapFind_insert_ne (m : WorkMap) (k h : Nat) (v : WorkItem) (hne : k ≠ h) :
    mapFind (mapInsert m k v) h = mapFind m h := by
  unfold mapInsert
  cases hf : mapFind m k with
  | some x => rfl
  | none =>
    simp only [mapFind_append, hne, if_false]
    cases mapFind m h <;> rfl

theorem mapFind_modify (m : WorkMap) (h k : Nat) (f : WorkItem → WorkItem) :
    mapFind (mapModify m h f) k = if k = h then (mapFind m h).map f else mapFind m k := by
  induction m with
  | nil => simp [mapModify, mapFind]
  | cons kv m ih =>
    obtain ⟨k1, v⟩ := kv
    by_cases hkk : k = h
    · subst hkk
      simp only [if_true] at ih
      by_cases hk : k1 = k
      · simp [mapModify, mapFind, hk]
      · simp [mapModify, mapFind, hk, ih]
    · simp only [if_neg hkk] at ih
      by_cases hk : k1 = h
      · subst hk
        have h1 : ¬ k1 = k := fun e => hkk e.symm
        simp [mapModify, mapFind, hkk, ih, h1]
      · by_cases h2 : k1 = k
        · simp [mapModify, mapFind, hk, hkk, h2]
        · simp [mapModify, mapFind, hk, hkk, ih, h2]

/-! ## WorkMgr::destroy -/

/-- C2. `WorkMgr::destroy(h)` leaves 0 in the caller's handle variable and no
entry under the old value of `h`; the entries under all other keys, the
dispatcher's list and the handle counter are as before, and when `h` had no
entry the whole state is as before. -/
theorem WorkMgr_destroy_clears (h : Nat) (st : World) :
    (WorkMgr.destroy h st).1 = 0 ∧
    mapFind (WorkMgr.destroy h st).2.g_work_items h = none ∧
    (∀ k, k ≠ h →
      mapFind (WorkMgr.destroy h st).2.g_work_items k = mapFind st.g_work_items k) ∧
    (WorkMgr.destroy h st).2.m_work = st.m_work ∧
    (WorkMgr.destroy h st).2.i = st.i ∧
    (mapFind st.g_work_items h = none → (WorkMgr.destroy h st).2 = st) := by
  unfold WorkMgr.destroy
  cases hf : mapFind st.g_work_items h with
  | none => simp [hf]
  | some x =>
    refine ⟨rfl, mapFind_erase_self _ _, ?_, rfl, rfl, ?_⟩
    · intro k hk
      exact mapFind_erase_ne _ _ _ hk
    · intro hc
      cases hc

/-! ## WorkMgr::schedule -/

/-- C4. `WorkMgr::schedule(h)` returns true exactly when the work map has an
entry for `h`. In that case `h`'s item is appended at the end of the
dispatcher's list, its `m_queue_time` becomes the value `offsetTime()`
returns at that moment, and no other item changes. When it returns false the
whole state, the dispatcher's list and every work item included, is as
before. -/
theorem WorkMgr_schedule_spec (clock : Nat → Timespec) (h : Nat) (st : World) :
    ((WorkMgr.schedule clock h st).1 = true ↔ ∃ item, mapFind st.g_work_items h = some item) ∧
    (∀ item, mapFind st.g_work_items h = some item →
      (WorkMgr.schedule clock h st).2.m_work = st.m_work ++ [h] ∧
      mapFind (WorkMgr.schedule clock h st).2.g_work_items h =
        some { item with m_queue_time := (offsetTime clock st).1 } ∧
      ∀ k, k ≠ h →
        mapFind (WorkMgr.schedule clock h st).2.g_work_items k = mapFind st.g_work_items k) ∧
    ((WorkMgr.schedule clock h st).1 = false → (WorkMgr.schedule clock h st).2 = st) := by
  unfold WorkMgr.schedule
  cases hf : mapFind st.g_work_items h with
  | none => simp
  | some x =>
    refine ⟨by simp, ?_, by simp⟩
    intro item hitem
    cases hitem
    refine ⟨rfl, ?_, ?_⟩
    · show mapFind (mapModify st.g_work_items h _) h = _
      rw [mapFind_modify, if_pos rfl, hf]
      rfl
    · intro k hk
      show mapFind (mapModify st.g_work_items h _) k = _
      rw [mapFind_modify, if_neg hk]

/-! ## WorkMgr::create -/

theorem countCreates_append (a b : List Op) :
    countCreates (a ++ b) = countCreates a + countCreates b := by
  induction a with
  | nil => simp [countCreates]
  | cons op a ih =>
    cases op <;> simp [countCreates, ih]
    omega

theorem countCreates_churn (h n : Nat) : countCreates (churn h n) = n := by
  induction n generalizing h with
  | zero => rfl
  | succ n ih =>
    show countCreates (churn (h + 1) n) + 1 = n + 1
    rw [ih]

/-- As long as the counter of `WorkMgr::create` does not pass `2^w - 1`, a
sequence of calls advances it by the number of `create` calls, keeps every
key of the map at or below it, and issues consecutive handles. -/
theorem runOps_counter (w : Nat) (clock : Nat → Timespec) (ops : List Op) (st : World)
    (hw : st.i + countCreates ops < 2 ^ w)
    (hkeys : ∀ k, st.i < k → mapFind st.g_work_items k = none) :
    (runOps w clock ops st).i = st.i + countCreates ops ∧
    (∀ k, (runOps w clock ops st).i < k →
      mapFind (runOps w clock ops st).g_work_items k = none) ∧
    issuedHandles w clock ops st = List.range' (st.i + 1) (countCreates ops) := by
  induction ops generalizing st with
  | nil => exact ⟨rfl, hkeys, rfl⟩
  | cons op ops ih =>
    cases op with
    | create cb arg delay =>
      simp only [countCreates] at hw
      have hmod : (st.i + 1) % 2 ^ w = st.i + 1 := Nat.mod_eq_of_lt (by omega)
      have hi : (WorkMgr.create w cb arg delay st).2.i = st.i + 1 := hmod
      have hk : ∀ k, (WorkMgr.create w cb arg delay st).2.i < k →
          mapFind (WorkMgr.create w cb arg delay st).2.g_work_items k = none := by
        intro k hlt
        rw [hi] at hlt
        show mapFind (mapInsert st.g_work_items ((st.i + 1) % 2 ^ w) _) k = none
        rw [hmod, mapFind_insert_ne _ _ _ _ (by omega)]
        exact hkeys k (by omega)
      obtain ⟨h1, h2, h3⟩ := ih (WorkMgr.create w cb arg delay st).2 (by rw [hi]; omega) hk
      refine ⟨?_, h2, ?_⟩
      · show (runOps w clock ops (WorkMgr.create w cb arg delay st).2).i = _
        rw [h1, hi]
        simp only [countCreates]
        omega
      · show (WorkMgr.create w cb arg delay st).1 :: issuedHandles w clock ops _ = _
        rw [h3, hi]
        show (st.i + 1) % 2 ^ w :: _ = _
        rw [hmod]
        simp only [countCreates]
        rw [List.range'_succ]
    | destroy h =>
      have hi : (WorkMgr.destroy h st).2.i = st.i := by
        unfold WorkMgr.destroy
        cases mapFind st.g_work_items h <;> rfl
      have hk : ∀ k, (WorkMgr.destroy h st).2.i < k →
          mapFind (WorkMgr.destroy h st).2.g_work_items k = none := by
        intro k hlt
        rw [hi] at hlt
        unfold WorkMgr.destroy
        cases hf : mapFind st.g_work_items h with
        | none => exact hkeys k hlt
        | some x =>
          show mapFind (mapErase st.g_work_items h) k = none
          by_cases hkh : k = h
          · rw [hkh]
            exact mapFind_erase_self _ _
          · rw [mapFind_erase_ne _ _ _ hkh]
            exact hkeys k hlt
      simp only [countCreates] at hw
      obtain ⟨h1, h2, h3⟩ := ih (WorkMgr.destroy h st).2 (by rw [hi]; exact hw) hk
      refine ⟨?_, h2, ?_⟩
      · show (runOps w clock ops (WorkMgr.destroy h st).2).i = _
        rw [h1, hi]
        simp only [countCreates]
      · show issuedHandles w clock ops (WorkMgr.destroy h st).2 = _
        rw [h3, hi]
        simp only [countCreates]
    | schedule h =>
      have hi : (WorkMgr.schedule clock h st).2.i = st.i := by
        unfold WorkMgr.schedule
        cases mapFind st.g_work_items h <;> rfl
      have hk : ∀ k, (WorkMgr.schedule clock h st).2.i < k →
          mapFind (WorkMgr.schedule clock h st).2.g_work_items k = none := by
        intro k hlt
        rw [hi] at hlt
        unfold WorkMgr.schedule
        cases hf : mapFind st.g_work_items h with
        | none => exact hkeys k hlt
        | some x =>
          show mapFind (mapModify st.g_work_items h _) k = none
          rw [mapFind_modify]
          by_cases hkh : k = h
          · rw [hkh] at hlt
            rw [hkeys h hlt] at hf
            cases hf
          · rw [if_neg hkh]
            exact hkeys k hlt
      simp only [countCreates] at hw
      obtain ⟨h1, h2, h3⟩ := ih (WorkMgr.schedule clock h st).2 (by rw [hi]; exact hw) hk
      refine ⟨?_, h2, ?_⟩
      · show (runOps w clock ops (WorkMgr.schedule clock h st).2).i = _
        rw [h1, hi]
        simp only [countCreates]
      · show issuedHandles w clock ops (WorkMgr.schedule clock h st).2 = _
        rw [h3, hi]
        simp only [countCreates]

theorem WorkMgr_create_fst (w cb arg delay : Nat) (st : World) :
    (WorkMgr.create w cb arg delay st).1 = (st.i + 1) % 2 ^ w := rfl

theorem World_init_keys (k : Nat) (_h : World.init.i < k) :
    mapFind World.init.g_work_items k = none := rfl

/-- C1, as amended. In every run that starts at start-up and makes `create`,
`destroy` and `schedule` calls in any order, as long as the handle to be
issued still fits the `w` bits of `WorkHandle` (1001 + number of earlier
`create` calls is below `2^w`): the handles issued so far, the new one
included, are 1001, 1002, ... in the order of issue, hence strictly
increasing, pairwise distinct and none 0; and after the call the map holds
under the returned handle a `WorkItem` with that handle, the given callback,
argument and delay, queue time 0 and reset statistics. -/
theorem WorkMgr_create_fresh_handle (w : Nat) (clock : Nat → Timespec) (ops : List Op)
    (cb arg delay : Nat) (hw : 1001 + countCreates ops < 2 ^ w) :
    issuedHandles w clock (ops ++ [Op.create cb arg delay]) World.init =
      List.range' 1001 (countCreates ops + 1) ∧
    (issuedHandles w clock (ops ++ [Op.create cb arg delay]) World.init).Pairwise (· < ·) ∧
    (issuedHandles w clock (ops ++ [Op.create cb arg delay]) World.init).Nodup ∧
    0 ∉ issuedHandles w clock (ops ++ [Op.create cb arg delay]) World.init ∧
    (WorkMgr.create w cb arg delay (runOps w clock ops World.init)).1 =
      1001 + countCreates ops ∧
    mapFind (WorkMgr.create w cb arg delay (runOps w clock ops World.init)).2.g_work_items
        (1001 + countCreates ops) =
      some { m_arg := arg, m_queue_time := 0, m_callback := cb, m_delay := delay,
             m_handle := 1001 + countCreates ops, m_last := ULONG_MAX, m_min := ULONG_MAX,
             m_max := 0, m_total := 0, m_count := 0 } := by
  have hcount : countCreates (ops ++ [Op.create cb arg delay]) = countCreates ops + 1 := by
    rw [countCreates_append]
    rfl
  have hall := (runOps_counter w clock (ops ++ [Op.create cb arg delay]) World.init
    (by rw [hcount]; show 1000 + (countCreates ops + 1) < 2 ^ w; omega) World_init_keys).2.2
  rw [hcount] at hall
  have hrun := runOps_counter w clock ops World.init
    (by show 1000 + countCreates ops < 2 ^ w; omega) World_init_keys
  have hi : (runOps w clock ops World.init).i = 1000 + countCreates ops := hrun.1
  have hmod : ((runOps w clock ops World.init).i + 1) % 2 ^ w = 1001 + countCreates ops := by
    rw [hi]
    exact (Nat.mod_eq_of_lt (by omega)).trans (by omega)
  refine ⟨hall, ?_, ?_, ?_, hmod, ?_⟩
  · rw [hall]
    exact List.pairwise_lt_range' 1001 _
  · rw [hall]
    exact List.nodup_range' 1001 _
  · rw [hall, List.mem_range']
    rintro ⟨j, _, hj⟩
    omega
  · show mapFind (mapInsert _ (((runOps w clock ops World.init).i + 1) % 2 ^ w) _)
      (1001 + countCreates ops) = _
    rw [hmod, mapFind_insert_self]
    · rfl
    · exact hrun.2.1 _ (by rw [hi]; omega)

/-- C1, witness: a run with two earlier `create` calls, one `schedule` and
one `destroy`, for a 32-bit `WorkHandle`. -/
theorem WorkMgr_create_fresh_handle_witness :
    issuedHandles 32 exampleClock
        ([Op.create 7 8 100, Op.schedule 1001, Op.create 7 9 200, Op.destroy 1001] ++
          [Op.create 5 6 300]) World.init = [1001, 1002, 1003] ∧
    (WorkMgr.create 32 5 6 300 (runOps 32 exampleClock
        [Op.create 7 8 100, Op.schedule 1001, Op.create 7 9 200, Op.destroy 1001]
        World.init)).1 = 1003 :=
  have h := WorkMgr_create_fresh_handle 32 exampleClock
    [Op.create 7 8 100, Op.schedule 1001, Op.create 7 9 200, Op.destroy 1001] 5 6 300
    (by decide)
  ⟨h.1, h.2.2.2.2.1⟩

/-- C1, counterexample to the claim as stated, for a 32-bit `WorkHandle`: a
client creates a work item and destroys it again, 4294966295 times, which
issues the handles 1001 up to 4294967295. The next `create` returns 0, which
is neither greater than the handle issued before it nor different from the
reserved "no handle" value. -/
theorem WorkMgr_create_handle_wraps :
    (WorkMgr.create 32 7 8 100 (runOps 32 exampleClock (churn 1001 4294966294)
      World.init)).1 = 4294967295 ∧
    (WorkMgr.create 32 7 8 100 (runOps 32 exampleClock (churn 1001 4294966295)
      World.init)).1 = 0 := by
  have h1 := (runOps_counter 32 exampleClock (churn 1001 4294966294)
    World.init (by rw [countCreates_churn]; decide) World_init_keys).1
  have h2 := (runOps_counter 32 exampleClock (churn 1001 4294966295)
    World.init (by rw [countCreates_churn]; decide) World_init_keys).1
  rw [countCreates_churn] at h1 h2
  rw [WorkMgr_create_fst, WorkMgr_create_fst, h1, h2]
  decide

/-! ## WorkMgr::destroy and the dispatcher's list -/

/-- C3, the code at a state where the item is queued: `destroy(1001)` erases
the map entry and clears the handle but leaves the dispatcher's list as it
was, so the list keeps an entry whose item is gone, and the next pass of
`HRTWorkQueue::process` dereferences it. -/
theorem WorkMgr_destroy_keeps_dispatcher_entry :
    scheduledWorld.m_work = [1001] ∧
    (mapFind scheduledWorld.g_work_items 1001).isSome = true ∧
    (WorkMgr.destroy 1001 scheduledWorld).1 = 0 ∧
    (WorkMgr.destroy 1001 scheduledWorld).2.m_work = [1001] ∧
    mapFind (WorkMgr.destroy 1001 scheduledWorld).2.g_work_items 1001 = none ∧
    HRTWorkQueue.process 32 exampleClock quietCallbacks 1 (WorkMgr.destroy 1001 scheduledWorld).2
      = Run.undefined := by
  decide

/-! ## Framework::initialize -/

/-- C5, the code at a failing first stage: when `pthread_mutex_init` fails,
`HRTWorkQueue::initialize` reports the failure as 2, and
`Framework::initialize`, which tests `ret < 0`, goes on to run
`DevMgr::initialize` and `WorkMgr::initialize` and returns 0. -/
theorem Framework_initialize_misses_positive_code :
    HRTWorkQueue.initialize true 11 0 0 = 2 ∧
    Framework.initialize ( HRTWorkQueue.initialize true 11 0 0) 0 WorkMgr.initialize =
      (0, [Stage.HRTWorkQueue, Stage.DevMgr, Stage.WorkMgr]) := by
  decide

/-! ## WorkItem::updateStats -/

/-- C6, the code at a timestamp of `2^32` µs: the parameter `unsigned int
cur_usec` keeps the low 32 bits of `now`, so for an item queued 100 µs
earlier the recorded delay is `0 - 4294967196` on 64 bits instead of 100, and
`m_last` becomes 0 instead of `now`. -/
theorem WorkItem_updateStats_truncates_now :
    sub64 4294967296 lateItem.m_queue_time = 100 ∧
    (lateItem.updateStats 4294967296).m_min = 18446744069414584420 ∧
    (lateItem.updateStats 4294967296).m_max = 18446744069414584420 ∧
    (lateItem.updateStats 4294967296).m_total = 18446744069414584420 ∧
    (lateItem.updateStats 4294967296).m_count = 1 ∧
    (lateItem.updateStats 4294967296).m_last = 0 := by
  decide

/-! ## absoluteTimeInFuture -/

/-- C9, as amended. For a clock reading with `0 ≤ tv_nsec < 10^9`, a
millisecond count with `tv_nsec + time_ms * 10^6 < 2^64`, and a `tv_sec`
that is a `time_t` value to which the whole seconds of
`tv_nsec + time_ms * 10^6` can be added without passing the largest `time_t`
value `2^63 - 1`: the `timespec` returned by `absoluteTimeInFuture(time_ms)`
has total nanoseconds equal to the reading's total nanoseconds plus
`time_ms * 10^6`, and its `tv_nsec` lies in `[0, 10^9)`. -/
theorem absoluteTimeInFuture_adds_ms (ts : Timespec) (time_ms : Nat)
    (h0 : 0 ≤ ts.tv_nsec) (h1 : ts.tv_nsec < 1000000000)
    (hov : ts.tv_nsec + (time_ms : Int) * 1000000 < 18446744073709551616)
    (hlo : -9223372036854775808 ≤ ts.tv_sec)
    (hfit : ts.tv_sec + (ts.tv_nsec + (time_ms : Int) * 1000000) / 1000000000
      < 9223372036854775808) :
    (absoluteTimeInFuture ts time_ms).tv_sec * 1000000000 +
        (absoluteTimeInFuture ts time_ms).tv_nsec =
      ts.tv_sec * 1000000000 + ts.tv_nsec + (time_ms : Int) * 1000000 ∧
    0 ≤ (absoluteTimeInFuture ts time_ms).tv_nsec ∧
    (absoluteTimeInFuture ts time_ms).tv_nsec < 1000000000 := by
  obtain ⟨sec, nsec⟩ := ts
  simp only at h0 h1 hov hlo hfit
  obtain ⟨n, rfl⟩ := Int.eq_ofNat_of_zero_le h0
  have hn : toU64 (n : Int) = n := by
    unfold toU64
    omega
  have hnsecs : add64 n (mul64 time_ms 1000000) = n + time_ms * 1000000 := by
    unfold add64 mul64 U64
    omega
  have hnsec : toS64 (sub64 (n + time_ms * 1000000)
      (mul64 ((n + time_ms * 1000000) / 1000000000) 1000000000))
      = (((n + time_ms * 1000000) % 1000000000 : Nat) : Int) := by
    unfold toS64 sub64 mul64 U64
    split <;> omega
  have hsec : toS64 (add64 (toU64 sec) ((n + time_ms * 1000000) / 1000000000))
      = sec + (((n + time_ms * 1000000) / 1000000000 : Nat) : Int) := by
    unfold toS64 add64 toU64 U64
    split <;> omega
  simp only [absoluteTimeInFuture, hn, hnsecs, hnsec, hsec]
  omega

/-- C9, witness: 1.5 s after a reading of 5 s and 999 999 999 ns. -/
theorem absoluteTimeInFuture_adds_ms_witness :
    (absoluteTimeInFuture { tv_sec := 5, tv_nsec := 999999999 } 1500).tv_sec * 1000000000 +
        (absoluteTimeInFuture { tv_sec := 5, tv_nsec := 999999999 } 1500).tv_nsec =
      5 * 1000000000 + 999999999 + (1500 : Int) * 1000000 ∧
    0 ≤ (absoluteTimeInFuture { tv_sec := 5, tv_nsec := 999999999 } 1500).tv_nsec ∧
    (absoluteTimeInFuture { tv_sec := 5, tv_nsec := 999999999 } 1500).tv_nsec < 1000000000 :=
  absoluteTimeInFuture_adds_ms { tv_sec := 5, tv_nsec := 999999999 } 1500
    (by decide) (by decide) (by decide) (by decide) (by decide)

/-- C9, counterexample to the claim as stated: the clock reads the largest
`time_t` value, 9223372036854775807 s and 0 ns, and `time_ms` is 1000. The
claim's conditions hold, but the sum of `ts.tv_sec += secs` does not fit
`time_t`: the `tv_sec` returned is the smallest `time_t` value and the total
nanoseconds are not the reading's plus `10^9`. -/
theorem absoluteTimeInFuture_tv_sec_wraps :
    (0 : Int) + (1000 : Int) * 1000000 < 18446744073709551616 ∧
    (absoluteTimeInFuture { tv_sec := 9223372036854775807, tv_nsec := 0 } 1000).tv_sec
      = -9223372036854775808 ∧
    (absoluteTimeInFuture { tv_sec := 9223372036854775807, tv_nsec := 0 } 1000).tv_nsec = 0 ∧
    (absoluteTimeInFuture { tv_sec := 9223372036854775807, tv_nsec := 0 } 1000).tv_sec
        * 1000000000 +
        (absoluteTimeInFuture { tv_sec := 9223372036854775807, tv_nsec := 0 } 1000).tv_nsec ≠
      9223372036854775807 * 1000000000 + 0 + (1000 : Int) * 1000000 := by
  decide

/-! ## HRTWorkQueue::process: one pass of the inner loop -/

theorem offsetTime_snd_g_work_items (clock : Nat → Timespec) (st : World) :
    (offsetTime clock st).2.g_work_items = st.g_work_items := rfl

theorem offsetTime_snd_m_work (clock : Nat → Timespec) (st : World) :
    (offsetTime clock st).2.m_work = st.m_work := rfl

theorem offsetTime_snd_calls (clock : Nat → Timespec) (st : World) :
    (offsetTime clock st).2.calls = st.calls := rfl

theorem Op_run_calls (w : Nat) (clock : Nat → Timespec) (op : Op) (st : World) :
    (Op.run w clock op st).calls = st.calls := by
  cases op with
  | create cb arg delay => rfl
  | destroy h =>
    show (WorkMgr.destroy h st).2.calls = st.calls
    unfold WorkMgr.destroy
    cases mapFind st.g_work_items h <;> rfl
  | schedule h =>
    show (WorkMgr.schedule clock h st).2.calls = st.calls
    unfold WorkMgr.schedule
    cases mapFind st.g_work_items h <;> rfl

theorem runOps_calls (w : Nat) (clock : Nat → Timespec) (ops : List Op) (st : World) :
    (runOps w clock ops st).calls = st.calls := by
  induction ops generalizing st with
  | nil => rfl
  | cons op ops ih =>
    show (runOps w clock ops (Op.run w clock op st)).calls = st.calls
    rw [ih, Op_run_calls]

theorem invoke_calls (w : Nat) (clock : Nat → Timespec) (beh : Behaviour) (cb arg handle : Nat)
    (st : World) :
    (invoke w clock beh cb arg handle st).calls = st.calls ++ [(cb, arg, handle)] := by
  unfold invoke
  rw [runOps_calls]

theorem visit_due (w : Nat) (clock : Nat → Timespec) (beh : Behaviour) (s : Scan)
    (ref : Nat) (item : WorkItem)
    (hpos : s.world.m_work[s.pos]? = some ref)
    (hitem : mapFind s.world.g_work_items ref = some item)
    (hdue : item.m_delay ≤ sub64 (offsetTime clock s.world).1 item.m_queue_time) :
    HRTWorkQueue.visit w clock beh s =
      some { world :=
               { HRTWorkQueue.called w clock beh ref (offsetTime clock s.world).1 item
                   (offsetTime clock s.world).2 with
                 m_work := (HRTWorkQueue.called w clock beh ref (offsetTime clock s.world).1 item
                   (offsetTime clock s.world).2).m_work.eraseIdx s.pos },
             pos := s.pos, next := s.next, now := (offsetTime clock s.world).1 } := by
  simp only [HRTWorkQueue.visit, hpos, offsetTime_snd_g_work_items, hitem]
  rw [if_pos hdue]

theorem visit_not_due (w : Nat) (clock : Nat → Timespec) (beh : Behaviour) (s : Scan)
    (ref : Nat) (item : WorkItem)
    (hpos : s.world.m_work[s.pos]? = some ref)
    (hitem : mapFind s.world.g_work_items ref = some item)
    (hnot : sub64 (offsetTime clock s.world).1 item.m_queue_time < item.m_delay) :
    HRTWorkQueue.visit w clock beh s =
      some { world := (offsetTime clock s.world).2, pos := s.pos + 1,
             next :=
               if sub64 item.m_delay (sub64 (offsetTime clock s.world).1 item.m_queue_time)
                   < s.next
               then sub64 item.m_delay (sub64 (offsetTime clock s.world).1 item.m_queue_time)
               else s.next,
             now := (offsetTime clock s.world).1 } := by
  simp only [HRTWorkQueue.visit, hpos, offsetTime_snd_g_work_items, hitem]
  rw [if_neg (by omega)]

/-- One pass of the inner loop over the entry at the iterator: the callback
is invoked exactly when the item is due, after `updateStats(now)`; an item
that is not due is left as it is and the iterator moves on. -/
theorem visit_spec (w : Nat) (clock : Nat → Timespec)
    (beh : Behaviour) (s : Scan) (ref : Nat) (item : WorkItem)
    (hpos : s.world.m_work[s.pos]? = some ref)
    (hitem : mapFind s.world.g_work_items ref = some item) :
    ∃ s1, HRTWorkQueue.visit w clock beh s = some s1 ∧
      s1.now = (offsetTime clock s.world).1 ∧
      (s1.world.calls = s.world.calls ++ [(item.m_callback, item.m_arg, item.m_handle)] ↔
        item.m_delay ≤ sub64 s1.now item.m_queue_time) ∧
      (s1.world.calls = s.world.calls ↔ sub64 s1.now item.m_queue_time < item.m_delay) ∧
      (item.m_delay ≤ sub64 s1.now item.m_queue_time →
        mapFind (HRTWorkQueue.dequeued ref s1.now (offsetTime clock s.world).2).g_work_items ref
          = some (item.updateStats s1.now) ∧
        (HRTWorkQueue.dequeued ref s1.now (offsetTime clock s.world).2).calls = s.world.calls ∧
        s1.world.g_work_items =
          (invoke w clock beh item.m_callback item.m_arg item.m_handle
            (HRTWorkQueue.dequeued ref s1.now (offsetTime clock s.world).2)).g_work_items) ∧
      (sub64 s1.now item.m_queue_time < item.m_delay →
        s1.world.g_work_items = s.world.g_work_items ∧
        s1.world.m_work = s.world.m_work ∧
        s1.pos = s.pos + 1) := by
  by_cases hdue : item.m_delay ≤ sub64 (offsetTime clock s.world).1 item.m_queue_time
  · refine ⟨_, visit_due w clock beh s ref item hpos hitem hdue, rfl, ?_, ?_, ?_, ?_⟩
    · constructor
      · intro _
        exact hdue
      · intro _
        show (HRTWorkQueue.called w clock beh ref _ item _).calls = _
        unfold HRTWorkQueue.called
        rw [invoke_calls]
        rfl
    · constructor
      · intro hc
        have hc2 : (HRTWorkQueue.called w clock beh ref (offsetTime clock s.world).1 item
            (offsetTime clock s.world).2).calls = s.world.calls := hc
        unfold HRTWorkQueue.called at hc2
        rw [invoke_calls] at hc2
        have hc3 : s.world.calls ++ [((item.updateStats (offsetTime clock s.world).1).m_callback,
            (item.updateStats (offsetTime clock s.world).1).m_arg,
            (item.updateStats (offsetTime clock s.world).1).m_handle)] = s.world.calls := hc2
        simp at hc3
      · intro hlt
        exact absurd hdue (Nat.not_le.mpr hlt)
    · intro _
      refine ⟨?_, rfl, rfl⟩
      show mapFind (mapModify s.world.g_work_items ref _) ref = _
      rw [mapFind_modify, if_pos rfl, hitem]
      rfl
    · intro hlt
      exact absurd hdue (Nat.not_le.mpr hlt)
  · have hnot : sub64 (offsetTime clock s.world).1 item.m_queue_time < item.m_delay := by omega
    refine ⟨_, visit_not_due w clock beh s ref item hpos hitem hnot, rfl, ?_, ?_, ?_, ?_⟩
    · constructor
      · intro hc
        have hc2 : s.world.calls =
            s.world.calls ++ [(item.m_callback, item.m_arg, item.m_handle)] := hc
        simp at hc2
      · intro hd
        exact absurd hd hdue
    · constructor
      · intro _
        exact hnot
      · intro _
        rfl
    · intro hd
      exact absurd hd hdue
    · intro _
      exact ⟨rfl, rfl, rfl⟩

/-! ## HRTWorkQueue::process: the inner loop over the entries of the list -/

theorem Op_run_m_work (w : Nat) (clock : Nat → Timespec) (op : Op) (st : World) :
    ∃ app, (Op.run w clock op st).m_work = st.m_work ++ app := by
  cases op with
  | create cb arg delay => exact ⟨[], (List.append_nil _).symm⟩
  | destroy h =>
    refine ⟨[], ?_⟩
    show (WorkMgr.destroy h st).2.m_work = _
    unfold WorkMgr.destroy
    cases mapFind st.g_work_items h <;> exact (List.append_nil _).symm
  | schedule h =>
    show ∃ app, (WorkMgr.schedule clock h st).2.m_work = _
    unfold WorkMgr.schedule
    cases mapFind st.g_work_items h with
    | none => exact ⟨[], (List.append_nil _).symm⟩
    | some x => exact ⟨[h], rfl⟩

theorem runOps_m_work (w : Nat) (clock : Nat → Timespec) (ops : List Op) (st : World) :
    ∃ app, (runOps w clock ops st).m_work = st.m_work ++ app := by
  induction ops generalizing st with
  | nil => exact ⟨[], (List.append_nil _).symm⟩
  | cons op ops ih =>
    obtain ⟨a1, h1⟩ := Op_run_m_work w clock op st
    obtain ⟨a2, h2⟩ := ih (Op.run w clock op st)
    refine ⟨a1 ++ a2, ?_⟩
    show (runOps w clock ops (Op.run w clock op st)).m_work = _
    rw [h2, h1, List.append_assoc]

theorem called_m_work (w : Nat) (clock : Nat → Timespec) (beh : Behaviour) (ref now : Nat)
    (item : WorkItem) (st : World) :
    ∃ app, (HRTWorkQueue.called w clock beh ref now item st).m_work = st.m_work ++ app := by
  unfold HRTWorkQueue.called invoke
  exact runOps_m_work w clock _ _

/-- What a defined pass over the entry `ref` at the iterator does to the list
and the iterator: either the entry is erased and entries are appended at the
end, or nothing changes and the iterator advances. -/
theorem visit_m_work (w : Nat) (clock : Nat → Timespec) (beh : Behaviour) (s s1 : Scan)
    (ref : Nat) (hpos : s.world.m_work[s.pos]? = some ref)
    (hvisit : HRTWorkQueue.visit w clock beh s = some s1) :
    (∃ app, s1.world.m_work = (s.world.m_work ++ app).eraseIdx s.pos ∧ s1.pos = s.pos) ∨
    (s1.world.m_work = s.world.m_work ∧ s1.pos = s.pos + 1) := by
  cases hfind : mapFind s.world.g_work_items ref with
  | none =>
    simp only [HRTWorkQueue.visit, hpos, offsetTime_snd_g_work_items, hfind] at hvisit
    cases hvisit
  | some item =>
    by_cases hdue : item.m_delay ≤ sub64 (offsetTime clock s.world).1 item.m_queue_time
    · rw [visit_due w clock beh s ref item hpos hfind hdue] at hvisit
      obtain ⟨app, happ⟩ := called_m_work w clock beh ref (offsetTime clock s.world).1 item
        (offsetTime clock s.world).2
      left
      refine ⟨app, ?_, ?_⟩
      · rw [← Option.some.inj hvisit]
        show (HRTWorkQueue.called w clock beh ref _ item _).m_work.eraseIdx s.pos = _
        rw [happ]
        rfl
      · rw [← Option.some.inj hvisit]
    · rw [visit_not_due w clock beh s ref item hpos hfind (by omega)] at hvisit
      right
      rw [← Option.some.inj hvisit]
      exact ⟨rfl, rfl⟩

/-- The shape of the list while the inner loop walks the entries `l` it
started with: the entries kept so far, the entries of `l` not yet visited,
the entries appended by callbacks. -/
theorem passes_shape (w : Nat) (clock : Nat → Timespec) (beh : Behaviour) (s0 : Scan)
    (hstart : s0.pos = 0) (k : Nat) (hk : k ≤ s0.world.m_work.length) (sk : Scan)
    (hreach : HRTWorkQueue.passes w clock beh k s0 = some sk) :
    ∃ kept app, sk.world.m_work = kept ++ (s0.world.m_work.drop k ++ app) ∧
      kept.length = sk.pos ∧ kept.Sublist (s0.world.m_work.take k) := by
  induction k generalizing sk with
  | zero =>
    cases hreach
    exact ⟨[], [], by simp, hstart.symm, by simp⟩
  | succ k ih =>
    simp only [HRTWorkQueue.passes, Option.bind_eq_some] at hreach
    obtain ⟨sj, hsj, hvisit⟩ := hreach
    obtain ⟨kept, app, hshape, hlen, hsub⟩ := ih (by omega) sj hsj
    have hklt : k < s0.world.m_work.length := by omega
    have hdrop : s0.world.m_work.drop k = s0.world.m_work[k] :: s0.world.m_work.drop (k + 1) :=
      List.drop_eq_getElem_cons hklt
    have htake : s0.world.m_work.take (k + 1) = s0.world.m_work.take k ++ [s0.world.m_work[k]] := by
      rw [List.take_succ, List.getElem?_eq_getElem hklt]
      rfl
    have hpos : sj.world.m_work[sj.pos]? = some (s0.world.m_work[k]) := by
      rw [hshape, hdrop, ← hlen, List.getElem?_append_right (Nat.le_refl _), Nat.sub_self,
        List.cons_append, List.getElem?_cons_zero]
    rcases visit_m_work w clock beh sj sk _ hpos hvisit with ⟨app1, hm, hp⟩ | ⟨hm, hp⟩
    · refine ⟨kept, app ++ app1, ?_, by omega, ?_⟩
      · rw [hm, hshape, hdrop, ← hlen, List.append_assoc,
          List.eraseIdx_append_of_length_le (Nat.le_refl _)]
        simp only [Nat.sub_self, List.cons_append, List.eraseIdx_cons_zero, List.append_assoc]
      · rw [htake]
        exact List.Sublist.trans hsub (List.sublist_append_left _ _)
    · refine ⟨kept ++ [s0.world.m_work[k]], app, ?_, ?_, ?_⟩
      · rw [hm, hshape, hdrop]
        simp only [List.append_assoc, List.cons_append, List.nil_append]
      · rw [hp, List.length_append, hlen]
        rfl
      · rw [htake]
        exact List.Sublist.append hsub (List.Sublist.refl _)

/-- During the passes over the entries the loop started with, the bounded loop
`scan` and the pass counter `passes` agree. -/
theorem scan_passes (w : Nat) (clock : Nat → Timespec) (beh : Behaviour) (s0 : Scan)
    (hstart : s0.pos = 0) (k : Nat) (hk : k ≤ s0.world.m_work.length) (sk : Scan)
    (hreach : HRTWorkQueue.passes w clock beh k s0 = some sk) (fuel : Nat) :
    HRTWorkQueue.scan w clock beh (k + fuel) s0 = HRTWorkQueue.scan w clock beh fuel sk := by
  induction k generalizing sk fuel with
  | zero =>
    cases hreach
    rw [Nat.zero_add]
  | succ k ih =>
    simp only [HRTWorkQueue.passes, Option.bind_eq_some] at hreach
    obtain ⟨sj, hsj, hvisit⟩ := hreach
    have h1 := ih (by omega) sj hsj (fuel + 1)
    obtain ⟨kept, app, hshape, hlen, _⟩ := passes_shape w clock beh s0 hstart k (by omega) sj hsj
    have hlt : sj.pos < sj.world.m_work.length := by
      rw [hshape, ← hlen]
      simp only [List.length_append, List.length_drop]
      omega
    have h2 : HRTWorkQueue.scan w clock beh (fuel + 1) sj = HRTWorkQueue.scan w clock beh fuel sk := by
      simp only [HRTWorkQueue.scan, if_pos hlt, hvisit]
    rw [← h2, ← h1]
    congr 1
    omega

/-- After `k` passes over a list that had more than `k` entries when the loop
started, the iterator is at the entry that was number `k`, and the entries
before the iterator are entries that were before it at the start, in their
original order. -/
theorem passes_at (w : Nat) (clock : Nat → Timespec) (beh : Behaviour) (s0 : Scan)
    (hstart : s0.pos = 0) (k : Nat) (hk : k < s0.world.m_work.length) (sk : Scan)
    (hreach : HRTWorkQueue.passes w clock beh k s0 = some sk) :
    sk.world.m_work[sk.pos]? = some s0.world.m_work[k] ∧
    (sk.world.m_work.take sk.pos).Sublist (s0.world.m_work.take k) := by
  obtain ⟨kept, app, hshape, hlen, hsub⟩ :=
    passes_shape w clock beh s0 hstart k (by omega) sk hreach
  have hdrop : s0.world.m_work.drop k = s0.world.m_work[k] :: s0.world.m_work.drop (k + 1) :=
    List.drop_eq_getElem_cons hk
  constructor
  · rw [hshape, hdrop, ← hlen, List.getElem?_append_right (Nat.le_refl _), Nat.sub_self,
      List.cons_append, List.getElem?_cons_zero]
  · rw [hshape, List.take_left' hlen]
    exact hsub

/-- C7. In one scan of `HRTWorkQueue::process`, started with the iterator at
the head of the list: pass number `k + 1` of the inner loop is at the entry
that was number `k` of the list when the scan started, and the entries kept
before the iterator are entries of the original list in their original order.
With `item` the item of that entry and `now` the value of `offsetTime()` in
that pass, the callback is invoked (the call log grows by exactly the call
`(m_callback, m_arg, m_handle)`) if and only if `now - m_queue_time ≥ m_delay`;
when it is invoked, `updateStats(now)` has already been applied to the item
and the call is not yet in the log; when `now - m_queue_time < m_delay`
nothing is invoked, no work item and no entry of the list changes, and the
entry joins the kept entries behind those kept before. -/
theorem HRTWorkQueue_scan_invokes_iff_due (w : Nat) (clock : Nat → Timespec)
    (beh : Behaviour) (s0 : Scan) (k : Nat) (sk : Scan) (item : WorkItem)
    (hstart : s0.pos = 0) (hk : k < s0.world.m_work.length)
    (hreach : HRTWorkQueue.passes w clock beh k s0 = some sk)
    (hitem : mapFind sk.world.g_work_items s0.world.m_work[k] = some item) :
    sk.world.m_work[sk.pos]? = some s0.world.m_work[k] ∧
    (sk.world.m_work.take sk.pos).Sublist (s0.world.m_work.take k) ∧
    (∀ fuel, HRTWorkQueue.scan w clock beh (k + fuel) s0 = HRTWorkQueue.scan w clock beh fuel sk) ∧
    ∃ s1, HRTWorkQueue.visit w clock beh sk = some s1 ∧
      s1.now = (offsetTime clock sk.world).1 ∧
      (s1.world.calls = sk.world.calls ++ [(item.m_callback, item.m_arg, item.m_handle)] ↔
        item.m_delay ≤ sub64 s1.now item.m_queue_time) ∧
      (s1.world.calls = sk.world.calls ↔ sub64 s1.now item.m_queue_time < item.m_delay) ∧
      (item.m_delay ≤ sub64 s1.now item.m_queue_time →
        mapFind (HRTWorkQueue.dequeued s0.world.m_work[k] s1.now
            (offsetTime clock sk.world).2).g_work_items s0.world.m_work[k]
          = some (item.updateStats s1.now) ∧
        (HRTWorkQueue.dequeued s0.world.m_work[k] s1.now (offsetTime clock sk.world).2).calls
          = sk.world.calls ∧
        s1.world.g_work_items =
          (invoke w clock beh item.m_callback item.m_arg item.m_handle
            (HRTWorkQueue.dequeued s0.world.m_work[k] s1.now
              (offsetTime clock sk.world).2)).g_work_items) ∧
      (sub64 s1.now item.m_queue_time < item.m_delay →
        s1.world.g_work_items = sk.world.g_work_items ∧
        s1.world.m_work = sk.world.m_work ∧
        s1.pos = sk.pos + 1 ∧
        s1.world.m_work.take s1.pos = sk.world.m_work.take sk.pos ++ [s0.world.m_work[k]]) := by
  obtain ⟨hpos, hsub⟩ := passes_at w clock beh s0 hstart k hk sk hreach
  refine ⟨hpos, hsub, scan_passes w clock beh s0 hstart k (by omega) sk hreach, ?_⟩
  obtain ⟨s1, hv, hnow, hc1, hc2, hd, hn⟩ := visit_spec w clock beh sk _ item hpos hitem
  refine ⟨s1, hv, hnow, hc1, hc2, hd, ?_⟩
  intro hlt
  obtain ⟨h1, h2, h3⟩ := hn hlt
  refine ⟨h1, h2, h3, ?_⟩
  rw [h2, h3, List.take_succ, hpos]
  rfl

/-- C7, witness: the second pass over `twoItemScan`, at item 1002, which is
not due (450 µs of its 1000 µs have elapsed): nothing is invoked and the
iterator moves on. -/
theorem HRTWorkQueue_scan_invokes_iff_due_witness :
    HRTWorkQueue.passes 32 exampleClock quietCallbacks 1 twoItemScan = some twoItemScanAfterOne ∧
    twoItemScanAfterOne.world.calls = [(7, 8, 1001)] ∧
    twoItemScanAfterOne.world.m_work[twoItemScanAfterOne.pos]? = some 1002 ∧
    ∃ s1, HRTWorkQueue.visit 32 exampleClock quietCallbacks twoItemScanAfterOne = some s1 ∧
      s1.world.calls = [(7, 8, 1001)] ∧ s1.world.m_work = [1002] ∧ s1.pos = 1 :=
  have hreach : HRTWorkQueue.passes 32 exampleClock quietCallbacks 1 twoItemScan =
      some twoItemScanAfterOne := by decide
  have h := HRTWorkQueue_scan_invokes_iff_due 32 exampleClock quietCallbacks twoItemScan 1
    twoItemScanAfterOne secondItem (by decide) (by decide) hreach (by decide)
  have hlt : sub64 (offsetTime exampleClock twoItemScanAfterOne.world).1 secondItem.m_queue_time
      < secondItem.m_delay := by decide
  match h.2.2.2 with
  | ⟨s1, hv, hnow, _, hc, _, hn⟩ =>
    ⟨hreach, by decide, h.1, s1, hv,
      ((hc.mpr (hnow ▸ hlt)).trans (by decide)),
      ((hn (hnow ▸ hlt)).2.1.trans (by decide)),
      ((hn (hnow ▸ hlt)).2.2.1.trans (by decide))⟩

/-! ## HRTWorkQueue::process: the callback and the erase -/

theorem schedule_found (clock : Nat → Timespec) (h : Nat) (st : World) (item : WorkItem)
    (hitem : mapFind st.g_work_items h = some item) :
    WorkMgr.schedule clock h st = (true, HRTWorkQueue.scheduleWorkItem clock h st) := by
  unfold WorkMgr.schedule
  rw [hitem]

theorem schedule_m_work (clock : Nat → Timespec) (h : Nat) (st : World) (item : WorkItem)
    (hitem : mapFind st.g_work_items h = some item) :
    (WorkMgr.schedule clock h st).2.m_work = st.m_work ++ [h] := by
  rw [schedule_found clock h st item hitem]
  rfl

theorem count_eraseIdx (l : List Nat) (p ref : Nat) (hpos : l[p]? = some ref) :
    (l.eraseIdx p).count ref + 1 = l.count ref := by
  have hlt : p < l.length := by
    rcases Nat.lt_or_ge p l.length with h | h
    · exact h
    · rw [List.getElem?_eq_none h] at hpos
      cases hpos
  have hget : l[p] = ref := by
    rw [List.getElem?_eq_getElem hlt] at hpos
    exact Option.some.inj hpos
  have hsplit : l = l.take p ++ (ref :: l.drop (p + 1)) := by
    rw [← hget, ← List.drop_eq_getElem_cons hlt, List.take_append_drop]
  rw [List.eraseIdx_eq_take_drop_succ]
  conv_rhs => rw [hsplit]
  rw [List.count_append, List.count_append, List.count_cons_self]
  omega

/-- C10, as amended. In a pass of `HRTWorkQueue::process` over a due item
whose callback re-schedules its own item: when the callback is invoked the
item's entry is still in the dispatcher's list, at the iterator; when the
callback returns the list is the old list with one more entry for the item
at its end; the entry at the iterator is erased only then, after which the
list holds as many entries for the item as before the pass (one, when it held
one), the new one at its end. -/
theorem HRTWorkQueue_erases_after_callback (w : Nat) (clock : Nat → Timespec)
    (beh : Behaviour) (s : Scan) (ref : Nat) (item : WorkItem)
    (hpos : s.world.m_work[s.pos]? = some ref)
    (hitem : mapFind s.world.g_work_items ref = some item)
    (hkey : item.m_handle = ref)
    (hdue : item.m_delay ≤ sub64 (offsetTime clock s.world).1 item.m_queue_time)
    (hbeh : beh item.m_callback item.m_arg item.m_handle = [Op.schedule item.m_handle]) :
    (HRTWorkQueue.dequeued ref (offsetTime clock s.world).1 (offsetTime clock s.world).2).m_work
      = s.world.m_work ∧
    (HRTWorkQueue.dequeued ref (offsetTime clock s.world).1
      (offsetTime clock s.world).2).m_work[s.pos]? = some ref ∧
    (HRTWorkQueue.called w clock beh ref (offsetTime clock s.world).1 item
      (offsetTime clock s.world).2).m_work = s.world.m_work ++ [ref] ∧
    (HRTWorkQueue.called w clock beh ref (offsetTime clock s.world).1 item
      (offsetTime clock s.world).2).m_work.count ref = s.world.m_work.count ref + 1 ∧
    ∃ s1, HRTWorkQueue.visit w clock beh s = some s1 ∧
      s1.world.m_work = s.world.m_work.eraseIdx s.pos ++ [ref] ∧
      s1.world.m_work.count ref = s.world.m_work.count ref := by
  have hlt : s.pos < s.world.m_work.length := by
    rcases Nat.lt_or_ge s.pos s.world.m_work.length with h | h
    · exact h
    · rw [List.getElem?_eq_none h] at hpos
      cases hpos
  have hfound : mapFind (HRTWorkQueue.dequeued ref (offsetTime clock s.world).1
      (offsetTime clock s.world).2).g_work_items ref
      = some (item.updateStats (offsetTime clock s.world).1) := by
    show mapFind (mapModify s.world.g_work_items ref _) ref = _
    rw [mapFind_modify, if_pos rfl, hitem]
    rfl
  have hcalled : (HRTWorkQueue.called w clock beh ref (offsetTime clock s.world).1 item
      (offsetTime clock s.world).2).m_work = s.world.m_work ++ [ref] := by
    show (runOps w clock (beh item.m_callback item.m_arg item.m_handle) _).m_work = _
    rw [hbeh, hkey]
    show (WorkMgr.schedule clock ref _).2.m_work = _
    refine Eq.trans (schedule_m_work clock ref _ (item.updateStats (offsetTime clock s.world).1)
      ?_) rfl
    exact hfound
  refine ⟨rfl, hpos, hcalled, ?_, _, visit_due w clock beh s ref item hpos hitem hdue, ?_, ?_⟩
  · rw [hcalled, List.count_append, List.count_singleton_self]
  · show (HRTWorkQueue.called w clock beh ref _ item _).m_work.eraseIdx s.pos = _
    rw [hcalled, List.eraseIdx_append_of_lt_length hlt]
  · show ((HRTWorkQueue.called w clock beh ref _ item _).m_work.eraseIdx s.pos).count ref = _
    rw [hcalled, List.eraseIdx_append_of_lt_length hlt, List.count_append,
      List.count_singleton_self]
    exact count_eraseIdx _ _ _ hpos

/-- C10, witness: the pass over item 1001 of `dueScan` with callbacks that
re-schedule their item. -/
theorem HRTWorkQueue_erases_after_callback_witness :
    dueScan.world.m_work = [1001] ∧
    (HRTWorkQueue.called 32 exampleClock reschedulingCallbacks 1001
      (offsetTime exampleClock dueScan.world).1 dueItem
      (offsetTime exampleClock dueScan.world).2).m_work = dueScan.world.m_work ++ [1001] ∧
    ∃ s1, HRTWorkQueue.visit 32 exampleClock reschedulingCallbacks dueScan = some s1 ∧
      s1.world.m_work = dueScan.world.m_work.eraseIdx dueScan.pos ++ [1001] ∧
      s1.world.m_work.count 1001 = dueScan.world.m_work.count 1001 :=
  have h := HRTWorkQueue_erases_after_callback 32 exampleClock reschedulingCallbacks dueScan
    1001 dueItem (by decide) (by decide) (by decide) (by decide) (by decide)
  ⟨by decide, h.2.2.1, h.2.2.2.2⟩

/-- C10, counterexample to the claim as stated: item 1001 is the only entry
of the list and is due at 300 µs. When its callback is invoked the list is
still `[1001]`; the callback re-schedules the item, and when it returns the
list is `[1001, 1001]`; only the erase that follows leaves `[1001]`. -/
theorem HRTWorkQueue_callback_sees_own_entry :
    dueScan.world.m_work = [1001] ∧
    mapFind dueScan.world.g_work_items 1001 = some dueItem ∧
    (offsetTime exampleClock dueScan.world).1 = 300 ∧
    dueItem.m_delay ≤ sub64 300 dueItem.m_queue_time ∧
    (HRTWorkQueue.dequeued 1001 300 (offsetTime exampleClock dueScan.world).2).m_work
      = [1001] ∧
    (HRTWorkQueue.dequeued 1001 300 (offsetTime exampleClock dueScan.world).2).calls = [] ∧
    (HRTWorkQueue.called 32 exampleClock reschedulingCallbacks 1001 300 dueItem
      (offsetTime exampleClock dueScan.world).2).m_work = [1001, 1001] ∧
    (HRTWorkQueue.called 32 exampleClock reschedulingCallbacks 1001 300 dueItem
      (offsetTime exampleClock dueScan.world).2).calls = [(7, 8, 1001)] ∧
    (HRTWorkQueue.visit 32 exampleClock reschedulingCallbacks dueScan).map
      (fun s1 => s1.world.m_work) = some [1001] := by
  decide

/-! ## Further properties -/

/-- X1. For a timestamp below `2^32` µs, `WorkItem::updateStats(now)` records
the delay `now - m_queue_time` when `m_last` is the all-ones sentinel and
`now - m_last` otherwise (on 64 bits): `m_min` becomes the smaller of the old
`m_min` and the delay, `m_max` the larger of the old `m_max` and the delay,
the delay is added to `m_total`, `m_count` grows by 1 and `m_last` becomes
`now`; the other fields are unchanged. -/
theorem WorkItem_updateStats_below_wrap (it : WorkItem) (now delay : Nat)
    (hnow : now < 4294967296)
    (hdelay : delay =
      if it.m_last = ULONG_MAX then sub64 now it.m_queue_time else sub64 now it.m_last) :
    (it.updateStats now).m_min = min it.m_min delay ∧
    (it.updateStats now).m_max = max it.m_max delay ∧
    (it.updateStats now).m_total = add64 it.m_total delay ∧
    (it.updateStats now).m_count = add64 it.m_count 1 ∧
    (it.updateStats now).m_last = now ∧
    (it.updateStats now).m_queue_time = it.m_queue_time ∧
    (it.updateStats now).m_delay = it.m_delay ∧
    (it.updateStats now).m_handle = it.m_handle ∧
    (it.updateStats now).m_arg = it.m_arg ∧
    (it.updateStats now).m_callback = it.m_callback := by
  have hmod : now % U32 = now := Nat.mod_eq_of_lt hnow
  simp only [WorkItem.updateStats, hmod, ← hdelay]
  refine ⟨?_, ?_, trivial, trivial, trivial, trivial, trivial, trivial, trivial, trivial⟩
  · by_cases h : delay < it.m_min
    · rw [if_pos h, Nat.min_eq_right (Nat.le_of_lt h)]
    · rw [if_neg h, Nat.min_eq_left (Nat.le_of_not_lt h)]
  · by_cases h : delay > it.m_max
    · rw [if_pos h, Nat.max_eq_right (Nat.le_of_lt h)]
    · rw [if_neg h, Nat.max_eq_left (Nat.le_of_not_lt h)]

/-- X1, witness: the first update of a fresh item queued at 0 µs, at 450 µs. -/
theorem WorkItem_updateStats_below_wrap_witness :
    (dueItem.updateStats 450).m_min = min dueItem.m_min 450 ∧
    (dueItem.updateStats 450).m_max = max dueItem.m_max 450 ∧
    (dueItem.updateStats 450).m_total = add64 dueItem.m_total 450 ∧
    (dueItem.updateStats 450).m_last = 450 :=
  have h := WorkItem_updateStats_below_wrap dueItem 450 450 (by decide) (by decide)
  ⟨h.1, h.2.1, h.2.2.1, h.2.2.2.2.1⟩

/-- X2. `Framework::initialize` on stage results: a negative result of
`HRTWorkQueue::initialize` is returned as it is and no other stage runs; a
negative result of `DevMgr::initialize` is returned less 10 and
`WorkMgr::initialize` does not run; a negative result of
`WorkMgr::initialize` is returned less 20; when no stage result is negative
all three stages run, in this order, and 0 is returned. In particular the
value returned is 0 exactly when no stage result is negative. -/
theorem Framework_initialize_negative_codes (hrt dev work : Int) :
    (hrt < 0 → Framework.initialize hrt dev work = (hrt, [Stage.HRTWorkQueue])) ∧
    (0 ≤ hrt → dev < 0 →
      Framework.initialize hrt dev work = (dev - 10, [Stage.HRTWorkQueue, Stage.DevMgr])) ∧
    (0 ≤ hrt → 0 ≤ dev → work < 0 →
      Framework.initialize hrt dev work =
        (work - 20, [Stage.HRTWorkQueue, Stage.DevMgr, Stage.WorkMgr])) ∧
    (0 ≤ hrt → 0 ≤ dev → 0 ≤ work →
      Framework.initialize hrt dev work =
        (0, [Stage.HRTWorkQueue, Stage.DevMgr, Stage.WorkMgr])) ∧
    (( Framework.initialize hrt dev work).1 = 0 ↔ 0 ≤ hrt ∧ 0 ≤ dev ∧ 0 ≤ work) := by
  unfold Framework.initialize
  by_cases h1 : hrt < 0
  · simp only [if_pos h1]
    refine ⟨fun _ => trivial, ?_, ?_, ?_, ?_⟩ <;> omega
  · by_cases h2 : dev < 0
    · simp only [if_neg h1, if_pos h2]
      refine ⟨?_, fun _ _ => trivial, ?_, ?_, ?_⟩ <;> omega
    · by_cases h3 : work < 0
      · simp only [if_neg h1, if_neg h2, if_pos h3]
        refine ⟨?_, ?_, fun _ _ _ => trivial, ?_, ?_⟩ <;> omega
      · simp only [if_neg h1, if_neg h2, if_neg h3]
        refine ⟨?_, ?_, ?_, fun _ _ _ => trivial,
          ⟨fun _ => ⟨by omega, by omega, by omega⟩, fun _ => trivial⟩⟩ <;> omega

theorem called_quiet (w : Nat) (clock : Nat → Timespec) (beh : Behaviour)
    (hq : ∀ cb arg handle, beh cb arg handle = []) (ref now : Nat) (item : WorkItem)
    (st : World) :
    (HRTWorkQueue.called w clock beh ref now item st).m_work = st.m_work ∧
    (HRTWorkQueue.called w clock beh ref now item st).g_work_items =
      mapModify st.g_work_items ref (fun it => it.updateStats now) := by
  unfold HRTWorkQueue.called invoke
  rw [hq]
  exact ⟨rfl, rfl⟩

/-- A pass with callbacks that make no `WorkMgr` call: either the entry at
the iterator is erased and its item updated, or nothing changes and the
iterator advances. -/
theorem visit_quiet (w : Nat) (clock : Nat → Timespec) (beh : Behaviour)
    (hq : ∀ cb arg handle, beh cb arg handle = []) (s : Scan) (ref : Nat) (item : WorkItem)
    (hpos : s.world.m_work[s.pos]? = some ref)
    (hitem : mapFind s.world.g_work_items ref = some item) :
    ∃ s1, HRTWorkQueue.visit w clock beh s = some s1 ∧
      ((s1.world.m_work = s.world.m_work.eraseIdx s.pos ∧ s1.pos = s.pos ∧
          s1.world.g_work_items = mapModify s.world.g_work_items ref
            (fun it => it.updateStats (offsetTime clock s.world).1)) ∨
        (s1.world.m_work = s.world.m_work ∧ s1.pos = s.pos + 1 ∧
          s1.world.g_work_items = s.world.g_work_items)) := by
  by_cases hdue : item.m_delay ≤ sub64 (offsetTime clock s.world).1 item.m_queue_time
  · obtain ⟨hcm, hcg⟩ := called_quiet w clock beh hq ref
      (offsetTime clock s.world).1 item (offsetTime clock s.world).2
    refine ⟨_, visit_due w clock beh s ref item hpos hitem hdue, Or.inl ⟨?_, rfl, ?_⟩⟩
    · show (HRTWorkQueue.called w clock beh ref _ item _).m_work.eraseIdx s.pos = _
      rw [hcm]
      rfl
    · show (HRTWorkQueue.called w clock beh ref _ item _).g_work_items = _
      rw [hcg]
      rfl
  · exact ⟨_, visit_not_due w clock beh s ref item hpos hitem (by omega),
      Or.inr ⟨rfl, rfl, rfl⟩⟩

/-- With callbacks that make no `WorkMgr` call, and every entry of the list
pointing to a stored item, each of the first passes of the inner loop is
defined; the list is then the kept entries followed by the entries not yet
visited, and the map has the keys it had. -/
theorem passes_quiet (w : Nat) (clock : Nat → Timespec) (beh : Behaviour)
    (hq : ∀ cb arg handle, beh cb arg handle = []) (s0 : Scan) (hstart : s0.pos = 0)
    (hlive : ∀ ref ∈ s0.world.m_work, ∃ item, mapFind s0.world.g_work_items ref = some item)
    (k : Nat) (hk : k ≤ s0.world.m_work.length) :
    ∃ sk kept, HRTWorkQueue.passes w clock beh k s0 = some sk ∧
      sk.world.m_work = kept ++ s0.world.m_work.drop k ∧ kept.length = sk.pos ∧
      kept.Sublist (s0.world.m_work.take k) ∧
      ∀ ref, (∃ item, mapFind sk.world.g_work_items ref = some item) ↔
        (∃ item, mapFind s0.world.g_work_items ref = some item) := by
  induction k with
  | zero =>
    exact ⟨s0, [], rfl, by simp, hstart.symm, by simp, fun _ => Iff.rfl⟩
  | succ k ih =>
    obtain ⟨sj, kept, hsj, hshape, hlen, hsub, hkeys⟩ := ih (by omega)
    have hklt : k < s0.world.m_work.length := by omega
    have hdrop : s0.world.m_work.drop k = s0.world.m_work[k] :: s0.world.m_work.drop (k + 1) :=
      List.drop_eq_getElem_cons hklt
    have htake : s0.world.m_work.take (k + 1) = s0.world.m_work.take k ++ [s0.world.m_work[k]] := by
      rw [List.take_succ, List.getElem?_eq_getElem hklt]
      rfl
    have hpos : sj.world.m_work[sj.pos]? = some (s0.world.m_work[k]) := by
      rw [hshape, hdrop, ← hlen, List.getElem?_append_right (Nat.le_refl _), Nat.sub_self,
        List.getElem?_cons_zero]
    obtain ⟨item, hitem⟩ := (hkeys _).mpr (hlive _ (List.getElem_mem hklt))
    obtain ⟨s1, hv, hcase⟩ := visit_quiet w clock beh hq sj _ item hpos hitem
    have hpass : HRTWorkQueue.passes w clock beh (k + 1) s0 = some s1 := by
      simp only [HRTWorkQueue.passes, hsj, Option.some_bind]
      exact hv
    rcases hcase with ⟨hm, hp, hg⟩ | ⟨hm, hp, hg⟩
    · refine ⟨s1, kept, hpass, ?_, by omega, ?_, ?_⟩
      · rw [hm, hshape, hdrop, ← hlen, List.eraseIdx_append_of_length_le (Nat.le_refl _),
          Nat.sub_self, List.eraseIdx_cons_zero]
      · rw [htake]
        exact List.Sublist.trans hsub (List.sublist_append_left _ _)
      · intro ref
        rw [hg, ← hkeys ref, mapFind_modify]
        by_cases hr : ref = s0.world.m_work[k]
        · rw [if_pos hr, hitem, hr, hitem]
          exact ⟨fun _ => ⟨_, rfl⟩, fun _ => ⟨_, rfl⟩⟩
        · rw [if_neg hr]
    · refine ⟨s1, kept ++ [s0.world.m_work[k]], hpass, ?_, ?_, ?_, ?_⟩
      · rw [hm, hshape, hdrop]
        simp only [List.append_assoc, List.cons_append, List.nil_append]
      · rw [hp, List.length_append, hlen]
        rfl
      · rw [htake]
        exact List.Sublist.append hsub (List.Sublist.refl _)
      · intro ref
        rw [hg]
        exact hkeys ref

/-- X3. With callbacks that make no `WorkMgr` call, and every entry of the
dispatcher's list pointing to a stored item, the inner loop of
`HRTWorkQueue::process` ends after as many passes as the list has entries:
the list it leaves consists of entries of the original list in their
original order, the iterator is at its end, and the pass of the outer loop
reaches the timed wait. -/
theorem HRTWorkQueue_scan_quiet_terminates (w : Nat) (clock : Nat → Timespec)
    (beh : Behaviour) (st : World)
    (hq : ∀ cb arg handle, beh cb arg handle = [])
    (hlive : ∀ ref ∈ st.m_work, (mapFind st.g_work_items ref).isSome = true) :
    ∃ s1, HRTWorkQueue.scan w clock beh st.m_work.length (HRTWorkQueue.scanStart clock st)
        = Run.done s1 ∧
      s1.world.m_work.Sublist st.m_work ∧
      s1.pos = s1.world.m_work.length ∧
      HRTWorkQueue.process w clock beh st.m_work.length st =
        Run.done (s1.world,
          offsetTimeToAbsoluteTime s1.world.g_timestart (add64 s1.now s1.next)) := by
  have hlive2 : ∀ ref ∈ (HRTWorkQueue.scanStart clock st).world.m_work,
      ∃ item, mapFind (HRTWorkQueue.scanStart clock st).world.g_work_items ref = some item := by
    intro ref href
    exact Option.isSome_iff_exists.mp (hlive ref href)
  obtain ⟨sk, kept, hreach, hshape, hlen, hsub, _⟩ := passes_quiet w clock beh hq
    (HRTWorkQueue.scanStart clock st) rfl hlive2 st.m_work.length (Nat.le_refl _)
  have hshape2 : sk.world.m_work = kept := by
    rw [hshape]
    show kept ++ List.drop st.m_work.length st.m_work = kept
    rw [List.drop_length, List.append_nil]
  have hsub2 : kept.Sublist st.m_work := by
    have h : kept.Sublist (List.take st.m_work.length st.m_work) := hsub
    rw [List.take_length] at h
    exact h
  have hscan := scan_passes w clock beh (HRTWorkQueue.scanStart clock st) rfl
    st.m_work.length (Nat.le_refl _) sk hreach 0
  have hend : HRTWorkQueue.scan w clock beh 0 sk = Run.done sk := by
    have hnot : ¬ sk.pos < sk.world.m_work.length := by
      rw [hshape2, hlen]
      exact Nat.lt_irrefl _
    simp only [HRTWorkQueue.scan, if_neg hnot]
  have hdone : HRTWorkQueue.scan w clock beh st.m_work.length
      (HRTWorkQueue.scanStart clock st) = Run.done sk := by
    rw [← hend, ← hscan]
    rfl
  refine ⟨sk, hdone, ?_, ?_, ?_⟩
  · rw [hshape2]
    exact hsub2
  · rw [hshape2, hlen]
  · unfold HRTWorkQueue.process
    simp only [hdone]

/-- X3, witness: the scan of `twoItemWorld`, whose two entries point to the
stored items 1001 and 1002. -/
theorem HRTWorkQueue_scan_quiet_terminates_witness :
    ∃ s1, HRTWorkQueue.scan 32 exampleClock quietCallbacks twoItemWorld.m_work.length
        (HRTWorkQueue.scanStart exampleClock twoItemWorld) = Run.done s1 ∧
      s1.world.m_work.Sublist twoItemWorld.m_work ∧
      s1.pos = s1.world.m_work.length ∧
      HRTWorkQueue.process 32 exampleClock quietCallbacks twoItemWorld.m_work.length
          twoItemWorld =
        Run.done (s1.world,
          offsetTimeToAbsoluteTime s1.world.g_timestart (add64 s1.now s1.next)) :=
  HRTWorkQueue_scan_quiet_terminates 32 exampleClock quietCallbacks twoItemWorld
    (fun _ _ _ => rfl) (by decide)

/-! ## offsetTimeToAbsoluteTime and TSToABSTime -/

theorem toU64_natCast (n : Nat) : toU64 (n : Int) = n % 18446744073709551616 := by
  unfold toU64
  omega

/-- C13. For an offset and an epoch `g_timestart` with
`offset + g_timestart < 2^64`, the `timespec` returned by
`offsetTimeToAbsoluteTime(offset)` has a `tv_nsec` in `[0, 10^9)` that is a
multiple of 1000, and `TSToABSTime` of it is `offset + g_timestart`. -/
theorem offsetTimeToAbsoluteTime_TSToABSTime (g_timestart offset : Nat)
    (h : offset + g_timestart < 18446744073709551616) :
    0 ≤ (offsetTimeToAbsoluteTime g_timestart offset).tv_nsec ∧
    (offsetTimeToAbsoluteTime g_timestart offset).tv_nsec < 1000000000 ∧
    (1000 : Int) ∣ (offsetTimeToAbsoluteTime g_timestart offset).tv_nsec ∧
    TSToABSTime (offsetTimeToAbsoluteTime g_timestart offset) = offset + g_timestart := by
  have habs : add64 offset g_timestart = offset + g_timestart := by
    unfold add64 U64
    omega
  have hmul : mul64 ((offset + g_timestart) % 1000000) 1000
      = (offset + g_timestart) % 1000000 * 1000 := by
    unfold mul64 U64
    omega
  have hdiv : Int.tdiv (((offset + g_timestart) % 1000000 * 1000 : Nat) : Int) 1000
      = (((offset + g_timestart) % 1000000 : Nat) : Int) := by
    rw [Int.tdiv_eq_ediv (by omega) (by omega)]
    omega
  simp only [offsetTimeToAbsoluteTime, TSToABSTime, habs, hmul, hdiv, toU64_natCast]
  refine ⟨by omega, by omega, ?_, ?_⟩
  · exact ⟨(((offset + g_timestart) % 1000000 : Nat) : Int), by push_cast; ring⟩
  · unfold add64 mul64 U64
    omega

/-- C13, witness: the offset 123 456 789 µs from an epoch of
1 700 000 000 000 000 µs. -/
theorem offsetTimeToAbsoluteTime_TSToABSTime_witness :
    (offsetTimeToAbsoluteTime 1700000000000000 123456789).tv_nsec = 456789000 ∧
    TSToABSTime (offsetTimeToAbsoluteTime 1700000000000000 123456789)
      = 123456789 + 1700000000000000 :=
  have h := offsetTimeToAbsoluteTime_TSToABSTime 1700000000000000 123456789 (by decide)
  ⟨by decide, h.2.2.2⟩

/-! ## WorkItem::resetStats followed by calls of WorkItem::updateStats -/

theorem updateStats_fields (it : WorkItem) (a : Nat) :
    (it.updateStats a).m_count = (it.m_count + 1) % U64 ∧
    (it.updateStats a).m_total = (it.m_total + it.observedDelay a) % U64 ∧
    (it.updateStats a).m_min =
      (if it.observedDelay a < it.m_min then it.observedDelay a else it.m_min) ∧
    (it.updateStats a).m_max =
      (if it.observedDelay a > it.m_max then it.observedDelay a else it.m_max) :=
  ⟨rfl, rfl, rfl, rfl⟩

theorem observedDelay_lt (it : WorkItem) (a : Nat) : it.observedDelay a < U64 := by
  unfold WorkItem.observedDelay sub64 U64
  split <;> omega

theorem recordedDelays_length (args : List Nat) (it : WorkItem) :
    (WorkItem.recordedDelays it args).length = args.length := by
  induction args generalizing it with
  | nil => rfl
  | cons a args ih => simp [WorkItem.recordedDelays, ih]

theorem recordedDelays_lt (args : List Nat) (it : WorkItem) :
    ∀ d ∈ WorkItem.recordedDelays it args, d < U64 := by
  induction args generalizing it with
  | nil =>
    intro d hd
    cases hd
  | cons a args ih =>
    intro d hd
    rcases List.mem_cons.mp hd with h | h
    · rw [h]
      exact observedDelay_lt it a
    · exact ih _ d h

/-- The counters after a sequence of calls, started from any item: `m_count`
and `m_total` modulo `2^64`. -/
theorem updateAll_count_total (args : List Nat) (it : WorkItem) :
    (WorkItem.updateAll it args).m_count % U64 = (it.m_count + args.length) % U64 ∧
    (WorkItem.updateAll it args).m_total % U64 =
      (it.m_total + (WorkItem.recordedDelays it args).sum) % U64 := by
  induction args generalizing it with
  | nil => exact ⟨rfl, rfl⟩
  | cons a args ih =>
    obtain ⟨h1, h2⟩ := ih (it.updateStats a)
    obtain ⟨hc, ht, _, _⟩ := updateStats_fields it a
    constructor
    · show (WorkItem.updateAll (it.updateStats a) args).m_count % U64 = _
      rw [h1, hc, List.length_cons]
      unfold U64
      omega
    · show (WorkItem.updateAll (it.updateStats a) args).m_total % U64 = _
      rw [h2, ht]
      show _ = (it.m_total + (it.observedDelay a
        + (WorkItem.recordedDelays (it.updateStats a) args).sum)) % U64
      unfold U64
      omega

theorem updateAll_lt (args : List Nat) (it : WorkItem) (a : Nat) :
    (WorkItem.updateAll it (a :: args)).m_count < U64 ∧
    (WorkItem.updateAll it (a :: args)).m_total < U64 := by
  induction args generalizing it a with
  | nil =>
    show (it.updateStats a).m_count < U64 ∧ (it.updateStats a).m_total < U64
    obtain ⟨hc, ht, _, _⟩ := updateStats_fields it a
    rw [hc, ht]
    unfold U64
    omega
  | cons b args ih => exact ih (it.updateStats a) b

/-- The extremes after a sequence of calls, started from any item: `m_min`
is the smallest of the old `m_min` and the recorded delays, `m_max` the
largest of the old `m_max` and the recorded delays. -/
theorem updateAll_min_max (args : List Nat) (it : WorkItem) :
    (WorkItem.updateAll it args).m_min ≤ it.m_min ∧
    (∀ d ∈ WorkItem.recordedDelays it args, (WorkItem.updateAll it args).m_min ≤ d) ∧
    ((WorkItem.updateAll it args).m_min = it.m_min ∨
      (WorkItem.updateAll it args).m_min ∈ WorkItem.recordedDelays it args) ∧
    it.m_max ≤ (WorkItem.updateAll it args).m_max ∧
    (∀ d ∈ WorkItem.recordedDelays it args, d ≤ (WorkItem.updateAll it args).m_max) ∧
    ((WorkItem.updateAll it args).m_max = it.m_max ∨
      (WorkItem.updateAll it args).m_max ∈ WorkItem.recordedDelays it args) := by
  induction args generalizing it with
  | nil =>
    refine ⟨Nat.le_refl _, ?_, Or.inl rfl, Nat.le_refl _, ?_, Or.inl rfl⟩
    · intro d hd
      cases hd
    · intro d hd
      cases hd
  | cons a args ih =>
    obtain ⟨h1, h2, h3, h4, h5, h6⟩ := ih (it.updateStats a)
    obtain ⟨_, _, hmin, hmax⟩ := updateStats_fields it a
    have hmin1 : (it.updateStats a).m_min ≤ it.m_min ∧
        (it.updateStats a).m_min ≤ it.observedDelay a ∧
        ((it.updateStats a).m_min = it.m_min ∨
          (it.updateStats a).m_min = it.observedDelay a) := by
      rw [hmin]
      split <;> omega
    have hmax1 : it.m_max ≤ (it.updateStats a).m_max ∧
        it.observedDelay a ≤ (it.updateStats a).m_max ∧
        ((it.updateStats a).m_max = it.m_max ∨
          (it.updateStats a).m_max = it.observedDelay a) := by
      rw [hmax]
      split <;> omega
    refine ⟨Nat.le_trans h1 hmin1.1, ?_, ?_, Nat.le_trans hmax1.1 h4, ?_, ?_⟩
    · intro d hd
      rcases List.mem_cons.mp hd with h | h
      · rw [h]
        exact Nat.le_trans h1 hmin1.2.1
      · exact h2 d h
    · rcases h3 with h | h
      · rcases hmin1.2.2 with h' | h'
        · exact Or.inl (h.trans h')
        · exact Or.inr (List.mem_cons.mpr (Or.inl (h.trans h')))
      · exact Or.inr (List.mem_cons.mpr (Or.inr h))
    · intro d hd
      rcases List.mem_cons.mp hd with h | h
      · rw [h]
        exact Nat.le_trans hmax1.2.1 h4
      · exact h5 d h
    · rcases h6 with h | h
      · rcases hmax1.2.2 with h' | h'
        · exact Or.inl (h.trans h')
        · exact Or.inr (List.mem_cons.mpr (Or.inl (h.trans h')))
      · exact Or.inr (List.mem_cons.mpr (Or.inr h))

/-- C12. After `resetStats()`, `m_last` and `m_min` are the all-ones sentinel
and `m_max`, `m_total`, `m_count` are 0. After `n ≥ 1` further calls of
`updateStats` with arbitrary arguments, `n` delays were recorded, `m_count`
is `n` for every number of calls `n < 2^64` (and `n` modulo `2^64` in
general), `m_min` is the smallest and `m_max` the largest of the recorded
delays (so `m_min ≤ m_max`), and `m_total` is their sum modulo `2^64`. -/
theorem WorkItem_stats_after_reset (it : WorkItem) (args : List Nat)
    (hn : 1 ≤ args.length) :
    it.resetStats.m_last = ULONG_MAX ∧ it.resetStats.m_min = ULONG_MAX ∧
    it.resetStats.m_max = 0 ∧ it.resetStats.m_total = 0 ∧ it.resetStats.m_count = 0 ∧
    (WorkItem.recordedDelays it.resetStats args).length = args.length ∧
    (WorkItem.updateAll it.resetStats args).m_count = args.length % U64 ∧
    (args.length < U64 → (WorkItem.updateAll it.resetStats args).m_count = args.length) ∧
    (WorkItem.updateAll it.resetStats args).m_min ∈ WorkItem.recordedDelays it.resetStats args ∧
    (∀ d ∈ WorkItem.recordedDelays it.resetStats args,
      (WorkItem.updateAll it.resetStats args).m_min ≤ d) ∧
    (WorkItem.updateAll it.resetStats args).m_max ∈ WorkItem.recordedDelays it.resetStats args ∧
    (∀ d ∈ WorkItem.recordedDelays it.resetStats args,
      d ≤ (WorkItem.updateAll it.resetStats args).m_max) ∧
    (WorkItem.updateAll it.resetStats args).m_min ≤ (WorkItem.updateAll it.resetStats args).m_max ∧
    (WorkItem.updateAll it.resetStats args).m_total =
      (WorkItem.recordedDelays it.resetStats args).sum % U64 := by
  obtain ⟨a, rest, rfl⟩ : ∃ a rest, args = a :: rest := by
    cases args with
    | nil => simp at hn
    | cons a rest => exact ⟨a, rest, rfl⟩
  obtain ⟨hc, ht⟩ := updateAll_count_total (a :: rest) it.resetStats
  obtain ⟨hclt, htlt⟩ := updateAll_lt rest it.resetStats a
  obtain ⟨_, hminle, hminmem, _, hmaxle, hmaxmem⟩ := updateAll_min_max (a :: rest) it.resetStats
  have hd0 : it.resetStats.observedDelay a ∈ WorkItem.recordedDelays it.resetStats (a :: rest) :=
    List.mem_cons.mpr (Or.inl rfl)
  have hd0lt : it.resetStats.observedDelay a < U64 := observedDelay_lt _ _
  have hcount : (WorkItem.updateAll it.resetStats (a :: rest)).m_count
      = (a :: rest).length % U64 := by
    rw [← Nat.mod_eq_of_lt hclt, hc]
    show (0 + (a :: rest).length) % U64 = _
    rw [Nat.zero_add]
  have hmin0 := hminle _ hd0
  have hmax0 := hmaxle _ hd0
  refine ⟨rfl, rfl, rfl, rfl, rfl, recordedDelays_length _ _, hcount, ?_, ?_, hminle, ?_,
    hmaxle, Nat.le_trans hmin0 hmax0, ?_⟩
  · intro hlt
    rw [hcount, Nat.mod_eq_of_lt hlt]
  · rcases hminmem with h | h
    · have h1 : (WorkItem.updateAll it.resetStats (a :: rest)).m_min = ULONG_MAX := h
      have h2 : (WorkItem.updateAll it.resetStats (a :: rest)).m_min
          = it.resetStats.observedDelay a := by
        unfold ULONG_MAX at h1
        unfold U64 at hd0lt
        omega
      rw [h2]
      exact hd0
    · exact h
  · rcases hmaxmem with h | h
    · have h1 : (WorkItem.updateAll it.resetStats (a :: rest)).m_max = 0 := h
      have h2 : (WorkItem.updateAll it.resetStats (a :: rest)).m_max
          = it.resetStats.observedDelay a := by
        omega
      rw [h2]
      exact hd0
    · exact h
  · rw [← Nat.mod_eq_of_lt htlt, ht]
    show (0 + _) % U64 = _
    rw [Nat.zero_add]

/-- C12, witness: the item queued at 0 µs, reset, then updated at 450, 900 and
1000 µs: the recorded delays are 450, 450 and 100. -/
theorem WorkItem_stats_after_reset_witness :
    WorkItem.recordedDelays dueItem.resetStats [450, 900, 1000] = [450, 450, 100] ∧
    (WorkItem.updateAll dueItem.resetStats [450, 900, 1000]).m_count = 3 ∧
    (WorkItem.updateAll dueItem.resetStats [450, 900, 1000]).m_min = 100 ∧
    (WorkItem.updateAll dueItem.resetStats [450, 900, 1000]).m_max = 450 ∧
    (WorkItem.updateAll dueItem.resetStats [450, 900, 1000]).m_total = 1000 :=
  have h := WorkItem_stats_after_reset dueItem [450, 900, 1000] (by decide)
  ⟨by decide, h.2.2.2.2.2.2.2.1 (by decide), by decide, by decide,
    h.2.2.2.2.2.2.2.2.2.2.2.2.2.trans (by decide)⟩

/-! ## HRTWorkQueue::process: the sleep interval -/

theorem mapFind_mem (m : WorkMap) (k : Nat) (item : WorkItem)
    (h : mapFind m k = some item) : (k, item) ∈ m := by
  induction m with
  | nil => cases h
  | cons kv m ih =>
    obtain ⟨k1, v⟩ := kv
    by_cases hk : k1 = k
    · simp only [mapFind, if_pos hk] at h
      rw [hk, Option.some.inj h]
      exact List.mem_cons_self _ _
    · simp only [mapFind, if_neg hk] at h
      exact List.mem_cons_of_mem _ (ih h)

theorem typedDelays_modify (m : WorkMap) (h : Nat) (f : WorkItem → WorkItem)
    (hf : ∀ it, (f it).m_delay = it.m_delay) (ht : typedDelays m) :
    typedDelays (mapModify m h f) := by
  induction m with
  | nil =>
    intro kv hkv
    cases hkv
  | cons kv m ih =>
    obtain ⟨k1, v⟩ := kv
    have hv : v.m_delay < U32 := ht (k1, v) (List.mem_cons_self _ _)
    have hm : typedDelays m := fun kv hkv => ht kv (List.mem_cons_of_mem _ hkv)
    intro kv hkv
    by_cases hk : k1 = h
    · simp only [mapModify, if_pos hk] at hkv
      rcases List.mem_cons.mp hkv with e | e
      · rw [e]
        show (f v).m_delay < U32
        rw [hf]
        exact hv
      · exact ih hm kv e
    · simp only [mapModify, if_neg hk] at hkv
      rcases List.mem_cons.mp hkv with e | e
      · rw [e]
        exact hv
      · exact ih hm kv e

theorem typedDelays_erase (m : WorkMap) (h : Nat) (ht : typedDelays m) :
    typedDelays (mapErase m h) := by
  induction m with
  | nil =>
    intro kv hkv
    cases hkv
  | cons kv m ih =>
    obtain ⟨k1, v⟩ := kv
    have hv : v.m_delay < U32 := ht (k1, v) (List.mem_cons_self _ _)
    have hm : typedDelays m := fun kv hkv => ht kv (List.mem_cons_of_mem _ hkv)
    intro kv hkv
    by_cases hk : k1 = h
    · simp only [mapErase, if_pos hk] at hkv
      exact ih hm kv hkv
    · simp only [mapErase, if_neg hk] at hkv
      rcases List.mem_cons.mp hkv with e | e
      · rw [e]
        exact hv
      · exact ih hm kv e

theorem typedDelays_insert (m : WorkMap) (k : Nat) (v : WorkItem) (hv : v.m_delay < U32)
    (ht : typedDelays m) : typedDelays (mapInsert m k v) := by
  unfold mapInsert
  cases mapFind m k with
  | some x => exact ht
  | none =>
    intro kv hkv
    rcases List.mem_append.mp hkv with e | e
    · exact ht kv e
    · rw [List.mem_singleton.mp e]
      exact hv

theorem Op_run_typed (w : Nat) (clock : Nat → Timespec) (op : Op) (st : World)
    (hop : ∀ c a d, op = Op.create c a d → d < U32) (ht : typedDelays st.g_work_items) :
    typedDelays (Op.run w clock op st).g_work_items := by
  cases op with
  | create cb arg delay =>
    exact typedDelays_insert _ _ _ (hop cb arg delay rfl) ht
  | destroy h =>
    show typedDelays (WorkMgr.destroy h st).2.g_work_items
    unfold WorkMgr.destroy
    cases mapFind st.g_work_items h with
    | none => exact ht
    | some x => exact typedDelays_erase _ _ ht
  | schedule h =>
    show typedDelays (WorkMgr.schedule clock h st).2.g_work_items
    unfold WorkMgr.schedule
    cases mapFind st.g_work_items h with
    | none => exact ht
    | some x => exact typedDelays_modify _ _ _ (fun _ => rfl) ht

theorem runOps_typed (w : Nat) (clock : Nat → Timespec) (ops : List Op) (st : World)
    (hops : ∀ c a d, Op.create c a d ∈ ops → d < U32) (ht : typedDelays st.g_work_items) :
    typedDelays (runOps w clock ops st).g_work_items := by
  induction ops generalizing st with
  | nil => exact ht
  | cons op ops ih =>
    show typedDelays (runOps w clock ops (Op.run w clock op st)).g_work_items
    refine ih _ (fun c a d hmem => hops c a d (List.mem_cons_of_mem _ hmem)) ?_
    exact Op_run_typed w clock op st
      (fun c a d e => hops c a d (e ▸ List.mem_cons_self _ _)) ht

theorem called_typed (w : Nat) (clock : Nat → Timespec) (beh : Behaviour)
    (hbeh : typedCreates beh) (ref now : Nat) (item : WorkItem) (st : World)
    (ht : typedDelays st.g_work_items) :
    typedDelays (HRTWorkQueue.called w clock beh ref now item st).g_work_items := by
  unfold HRTWorkQueue.called invoke
  refine runOps_typed w clock _ _ (fun c a d hmem => hbeh _ _ _ c a d hmem) ?_
  exact typedDelays_modify _ _ _ (fun _ => rfl) ht

/-- What a defined pass of the inner loop does to the local variables, to
the list and to the typing of the stored delays. -/
theorem visit_cases (w : Nat) (clock : Nat → Timespec) (beh : Behaviour)
    (hbeh : typedCreates beh) (s s1 : Scan)
    (hvisit : HRTWorkQueue.visit w clock beh s = some s1) :
    ∃ ref item, s.world.m_work[s.pos]? = some ref ∧
      mapFind s.world.g_work_items ref = some item ∧
      (typedDelays s.world.g_work_items → typedDelays s1.world.g_work_items) ∧
      ((item.m_delay ≤ sub64 (offsetTime clock s.world).1 item.m_queue_time ∧
          s1.next = s.next ∧ s1.pos = s.pos ∧
          ∃ app, s1.world.m_work = (s.world.m_work ++ app).eraseIdx s.pos) ∨
        (sub64 (offsetTime clock s.world).1 item.m_queue_time < item.m_delay ∧
          s1.next =
            (if sub64 item.m_delay (sub64 (offsetTime clock s.world).1 item.m_queue_time)
                < s.next
             then sub64 item.m_delay (sub64 (offsetTime clock s.world).1 item.m_queue_time)
             else s.next) ∧
          s1.pos = s.pos + 1 ∧ s1.world.m_work = s.world.m_work)) := by
  cases hpos : s.world.m_work[s.pos]? with
  | none =>
    simp only [HRTWorkQueue.visit, hpos] at hvisit
    cases hvisit
  | some ref =>
    cases hfind : mapFind s.world.g_work_items ref with
    | none =>
      simp only [HRTWorkQueue.visit, hpos, offsetTime_snd_g_work_items, hfind] at hvisit
      cases hvisit
    | some item =>
      refine ⟨ref, item, rfl, hfind, ?_⟩
      by_cases hdue : item.m_delay ≤ sub64 (offsetTime clock s.world).1 item.m_queue_time
      · rw [visit_due w clock beh s ref item hpos hfind hdue] at hvisit
        obtain ⟨app, happ⟩ := called_m_work w clock beh ref (offsetTime clock s.world).1 item
          (offsetTime clock s.world).2
        rw [← Option.some.inj hvisit]
        refine ⟨?_, Or.inl ⟨hdue, rfl, rfl, app, ?_⟩⟩
        · intro ht
          exact called_typed w clock beh hbeh ref _ item _ ht
        · show (HRTWorkQueue.called w clock beh ref _ item _).m_work.eraseIdx s.pos = _
          rw [happ]
          rfl
      · rw [visit_not_due w clock beh s ref item hpos hfind (by omega)] at hvisit
        rw [← Option.some.inj hvisit]
        exact ⟨fun ht => ht, Or.inr ⟨by omega, rfl, rfl, rfl⟩⟩

theorem passes_succ (w : Nat) (clock : Nat → Timespec) (beh : Behaviour) (k : Nat)
    (s : Scan) :
    HRTWorkQueue.passes w clock beh (k + 1) s =
      (HRTWorkQueue.visit w clock beh s).bind (HRTWorkQueue.passes w clock beh k) := by
  induction k with
  | zero =>
    show HRTWorkQueue.visit w clock beh s = _
    cases HRTWorkQueue.visit w clock beh s <;> rfl
  | succ k ih =>
    show (HRTWorkQueue.passes w clock beh (k + 1) s).bind (HRTWorkQueue.visit w clock beh) = _
    rw [ih]
    cases HRTWorkQueue.visit w clock beh s with
    | none => rfl
    | some s1 => rfl

theorem keptAt_of_visit (w : Nat) (clock : Nat → Timespec) (beh : Behaviour) (s s1 : Scan)
    (hvisit : HRTWorkQueue.visit w clock beh s = some s1) (p ref r : Nat)
    (h : HRTWorkQueue.keptAt w clock beh s1 p ref r) :
    HRTWorkQueue.keptAt w clock beh s p ref r := by
  obtain ⟨j, sj, item, hj, hrest⟩ := h
  refine ⟨j + 1, sj, item, ?_, hrest⟩
  rw [passes_succ, hvisit]
  exact hj

theorem keptAt_cases (w : Nat) (clock : Nat → Timespec) (beh : Behaviour) (s : Scan)
    (p ref r : Nat) (h : HRTWorkQueue.keptAt w clock beh s p ref r) :
    (p = s.pos ∧ s.world.m_work[s.pos]? = some ref ∧
      ∃ item, mapFind s.world.g_work_items ref = some item ∧
        sub64 (offsetTime clock s.world).1 item.m_queue_time < item.m_delay ∧
        r = item.m_delay - sub64 (offsetTime clock s.world).1 item.m_queue_time) ∨
    (∃ s1, HRTWorkQueue.visit w clock beh s = some s1 ∧
      HRTWorkQueue.keptAt w clock beh s1 p ref r) := by
  obtain ⟨j, sj, item, hj, hp, hm, hf, hnd, hr⟩ := h
  cases j with
  | zero =>
    have hsj : s = sj := Option.some.inj hj
    subst hsj
    subst hp
    exact Or.inl ⟨rfl, hm, item, hf, hnd, hr⟩
  | succ j =>
    rw [passes_succ] at hj
    cases hv : HRTWorkQueue.visit w clock beh s with
    | none =>
      rw [hv] at hj
      cases hj
    | some s1 =>
      rw [hv] at hj
      exact Or.inr ⟨s1, rfl, j, sj, item, hj, hp, hm, hf, hnd, hr⟩

theorem sub64_of_lt (d e : Nat) (h : e < d) (hd : d < U32) : sub64 d e = d - e := by
  unfold sub64 U64
  unfold U32 at hd
  omega

/-- The inner loop when the iterator is at the end of the list: it ends at
once and no pass takes place. -/
theorem scan_end (w : Nat) (clock : Nat → Timespec) (beh : Behaviour) (s : Scan)
    (hle : s.pos ≤ s.world.m_work.length) (hnot : ¬ s.pos < s.world.m_work.length) :
    s.pos = s.world.m_work.length ∧
    ∀ p ref r, ¬ HRTWorkQueue.keptAt w clock beh s p ref r := by
  have hnone : s.world.m_work[s.pos]? = none := List.getElem?_eq_none (by omega)
  refine ⟨by omega, ?_⟩
  intro p ref r h
  rcases keptAt_cases w clock beh s p ref r h with ⟨_, hm, _⟩ | ⟨s1, hv, _⟩
  · rw [hnone] at hm
    cases hm
  · simp only [HRTWorkQueue.visit, hnone] at hv
    cases hv

/-- The inner loop from any state of its local variables, when it ends: the
iterator is at the end of the list; the entries before the iterator's old
position are untouched; `next` has not grown and stays positive; every entry
found not due since then is still at its place and bounds `next`; every
position passed since then holds such an entry; `next` is its old value or
the `remaining` computed for one of them. -/
theorem scan_next (w : Nat) (clock : Nat → Timespec) (beh : Behaviour)
    (hbeh : typedCreates beh) (fuel : Nat) :
    ∀ s sK : Scan, HRTWorkQueue.scan w clock beh fuel s = Run.done sK →
      typedDelays s.world.g_work_items → s.pos ≤ s.world.m_work.length →
      sK.pos = sK.world.m_work.length ∧ s.pos ≤ sK.pos ∧
      (∀ p, p < s.pos → sK.world.m_work[p]? = s.world.m_work[p]?) ∧
      sK.next ≤ s.next ∧ (0 < s.next → 0 < sK.next) ∧
      (∀ p ref r, HRTWorkQueue.keptAt w clock beh s p ref r →
        sK.world.m_work[p]? = some ref ∧ sK.next ≤ r) ∧
      (∀ p, s.pos ≤ p → p < sK.pos → ∃ ref r, HRTWorkQueue.keptAt w clock beh s p ref r) ∧
      (sK.next = s.next ∨ ∃ p ref r, HRTWorkQueue.keptAt w clock beh s p ref r ∧ sK.next = r) := by
  induction fuel with
  | zero =>
    intro s sK hscan _ hle
    by_cases hlt : s.pos < s.world.m_work.length
    · simp only [HRTWorkQueue.scan, if_pos hlt] at hscan
      cases hscan
    · simp only [HRTWorkQueue.scan, if_neg hlt] at hscan
      have hs : s = sK := Run.done.inj hscan
      subst hs
      obtain ⟨hend, hno⟩ := scan_end w clock beh s hle hlt
      exact ⟨hend, Nat.le_refl _, fun _ _ => rfl, Nat.le_refl _, fun h => h,
        fun p ref r h => absurd h (hno p ref r), fun p h1 h2 => absurd h2 (by omega),
        Or.inl rfl⟩
  | succ fuel ih =>
    intro s sK hscan htyped hle
    by_cases hlt : s.pos < s.world.m_work.length
    · simp only [HRTWorkQueue.scan, if_pos hlt] at hscan
      cases hv : HRTWorkQueue.visit w clock beh s with
      | none =>
        rw [hv] at hscan
        cases hscan
      | some s1 =>
        rw [hv] at hscan
        have hscan1 : HRTWorkQueue.scan w clock beh fuel s1 = Run.done sK := hscan
        obtain ⟨ref, item, hpos, hfind, ht1, hcase⟩ := visit_cases w clock beh hbeh s s1 hv
        have hitem : item.m_delay < U32 := htyped (ref, item) (mapFind_mem _ _ _ hfind)
        rcases hcase with ⟨hdue, hnext, hp1, app, hm1⟩ | ⟨hnd, hnext, hp1, hm1⟩
        · have hle1 : s1.pos ≤ s1.world.m_work.length := by
            rw [hm1, hp1, List.length_eraseIdx_of_lt (by rw [List.length_append]; omega),
              List.length_append]
            omega
          obtain ⟨a1, a2, a3, a4, a5, a6, a7, a8⟩ := ih s1 sK hscan1 (ht1 htyped) hle1
          refine ⟨a1, by omega, ?_, by omega, fun h => a5 (by omega), ?_, ?_, ?_⟩
          · intro p hp
            rw [a3 p (by omega), hm1, List.getElem?_eraseIdx_of_lt _ _ _ hp,
              List.getElem?_append_left (by omega)]
          · intro p ref1 r h
            rcases keptAt_cases w clock beh s p ref1 r h with
              ⟨_, hm, item1, hf1, hnd1, _⟩ | ⟨s2, hv2, hk⟩
            · rw [hpos] at hm
              rw [← Option.some.inj hm, hfind] at hf1
              rw [← Option.some.inj hf1] at hnd1
              exact absurd hdue (Nat.not_le.mpr hnd1)
            · rw [hv] at hv2
              rw [Option.some.inj hv2] at a6
              exact a6 p ref1 r hk
          · intro p h1 h2
            obtain ⟨ref1, r, hk⟩ := a7 p (by omega) h2
            exact ⟨ref1, r, keptAt_of_visit w clock beh s s1 hv p ref1 r hk⟩
          · rcases a8 with h | ⟨p, ref1, r, hk, h⟩
            · exact Or.inl (h.trans hnext)
            · exact Or.inr ⟨p, ref1, r, keptAt_of_visit w clock beh s s1 hv p ref1 r hk, h⟩
        · have hrem : sub64 item.m_delay (sub64 (offsetTime clock s.world).1 item.m_queue_time)
              = item.m_delay - sub64 (offsetTime clock s.world).1 item.m_queue_time :=
            sub64_of_lt _ _ hnd hitem
          rw [hrem] at hnext
          have hk0 : HRTWorkQueue.keptAt w clock beh s s.pos ref
              (item.m_delay - sub64 (offsetTime clock s.world).1 item.m_queue_time) :=
            ⟨0, s, item, rfl, rfl, hpos, hfind, hnd, rfl⟩
          have hle1 : s1.pos ≤ s1.world.m_work.length := by
            rw [hm1, hp1]
            omega
          have hn1 : s1.next ≤ s.next ∧
              s1.next ≤ item.m_delay - sub64 (offsetTime clock s.world).1 item.m_queue_time ∧
              (s1.next = s.next ∨ s1.next =
                item.m_delay - sub64 (offsetTime clock s.world).1 item.m_queue_time) := by
            rw [hnext]
            split <;> omega
          obtain ⟨a1, a2, a3, a4, a5, a6, a7, a8⟩ := ih s1 sK hscan1 (ht1 htyped) hle1
          refine ⟨a1, by omega, ?_, by omega, fun h => a5 (by omega), ?_, ?_, ?_⟩
          · intro p hp
            rw [a3 p (by omega), hm1]
          · intro p ref1 r h
            rcases keptAt_cases w clock beh s p ref1 r h with
              ⟨hp, hm, item1, hf1, _, hr⟩ | ⟨s2, hv2, hk⟩
            · rw [hpos] at hm
              rw [← Option.some.inj hm, hfind] at hf1
              rw [← Option.some.inj hf1] at hr
              rw [hp, a3 s.pos (by omega), hm1, hpos, ← Option.some.inj hm, hr]
              exact ⟨rfl, by omega⟩
            · rw [hv] at hv2
              rw [Option.some.inj hv2] at a6
              exact a6 p ref1 r hk
          · intro p h1 h2
            by_cases hps : p = s.pos
            · rw [hps]
              exact ⟨ref, _, hk0⟩
            · obtain ⟨ref1, r, hk⟩ := a7 p (by omega) h2
              exact ⟨ref1, r, keptAt_of_visit w clock beh s s1 hv p ref1 r hk⟩
          · rcases a8 with h | ⟨p, ref1, r, hk, h⟩
            · rcases hn1.2.2 with h' | h'
              · exact Or.inl (h.trans h')
              · exact Or.inr ⟨s.pos, ref, _, hk0, h.trans h'⟩
            · exact Or.inr ⟨p, ref1, r, keptAt_of_visit w clock beh s s1 hv p ref1 r hk, h⟩
    · simp only [HRTWorkQueue.scan, if_neg hlt] at hscan
      have hs : s = sK := Run.done.inj hscan
      subst hs
      obtain ⟨hend, hno⟩ := scan_end w clock beh s hle hlt
      exact ⟨hend, Nat.le_refl _, fun _ _ => rfl, Nat.le_refl _, fun h => h,
        fun p ref r h => absurd h (hno p ref r), fun p h1 h2 => absurd h2 (by omega),
        Or.inl rfl⟩

/-- With callbacks that make no `WorkMgr` call, and every entry of the list
pointing to a stored item, the inner loop ends within as many passes as the
list has entries. -/
theorem scan_quiet_done (w : Nat) (clock : Nat → Timespec) (beh : Behaviour) (st : World)
    (hq : ∀ cb arg handle, beh cb arg handle = [])
    (hlive : ∀ ref ∈ st.m_work, (mapFind st.g_work_items ref).isSome = true) :
    ∃ sK, HRTWorkQueue.scan w clock beh st.m_work.length (HRTWorkQueue.scanStart clock st)
      = Run.done sK := by
  have hlive2 : ∀ ref ∈ (HRTWorkQueue.scanStart clock st).world.m_work,
      ∃ item, mapFind (HRTWorkQueue.scanStart clock st).world.g_work_items ref = some item := by
    intro ref href
    exact Option.isSome_iff_exists.mp (hlive ref href)
  obtain ⟨sk, kept, hreach, hshape, hlen, _, _⟩ := passes_quiet w clock beh hq
    (HRTWorkQueue.scanStart clock st) rfl hlive2 st.m_work.length (Nat.le_refl _)
  have hshape2 : sk.world.m_work = kept := by
    rw [hshape]
    show kept ++ List.drop st.m_work.length st.m_work = kept
    rw [List.drop_length, List.append_nil]
  have hscan := scan_passes w clock beh (HRTWorkQueue.scanStart clock st) rfl
    st.m_work.length (Nat.le_refl _) sk hreach 0
  have hend : HRTWorkQueue.scan w clock beh 0 sk = Run.done sk := by
    have hnot : ¬ sk.pos < sk.world.m_work.length := by
      rw [hshape2, hlen]
      exact Nat.lt_irrefl _
    simp only [HRTWorkQueue.scan, if_neg hnot]
  refine ⟨sk, ?_⟩
  rw [← hend, ← hscan]
  rfl

/-- C11. For stored delays and created delays that are `uint32_t` values:
whenever the scan of one pass of `HRTWorkQueue::process` ends, the iterator
is at the end of the list, every entry the scan found not due is still in
the list at the place where it was found and every entry of the list is such
an entry; `next` is at most the `remaining = m_delay - elapsed` computed for
each of them and is either 10 000 000 or one of these values, so it is the
minimum of 10 000 000 and these values; `0 < next ≤ 10 000 000`; `next` is
10 000 000 when the list is empty; and the deadline handed to the timed wait
is `offsetTimeToAbsoluteTime(now + next)`. With callbacks that make no
`WorkMgr` call and a list whose entries all point to stored items, the scan
ends within as many passes as the list has entries. -/
theorem HRTWorkQueue_process_sleep_interval (w : Nat) (clock : Nat → Timespec)
    (beh : Behaviour) (st : World)
    (hbeh : typedCreates beh) (htyped : typedDelays st.g_work_items) :
    (∀ fuel sK,
      HRTWorkQueue.scan w clock beh fuel (HRTWorkQueue.scanStart clock st) = Run.done sK →
      sK.pos = sK.world.m_work.length ∧
      0 < sK.next ∧ sK.next ≤ 10000000 ∧
      (∀ p ref r, HRTWorkQueue.keptAt w clock beh (HRTWorkQueue.scanStart clock st) p ref r →
        sK.world.m_work[p]? = some ref ∧ sK.next ≤ r) ∧
      (∀ p, p < sK.world.m_work.length →
        ∃ ref r, HRTWorkQueue.keptAt w clock beh (HRTWorkQueue.scanStart clock st) p ref r) ∧
      (sK.next = 10000000 ∨
        ∃ p ref r, HRTWorkQueue.keptAt w clock beh (HRTWorkQueue.scanStart clock st) p ref r ∧
          sK.next = r) ∧
      (sK.world.m_work = [] → sK.next = 10000000) ∧
      HRTWorkQueue.process w clock beh fuel st =
        Run.done (sK.world,
          offsetTimeToAbsoluteTime sK.world.g_timestart (add64 sK.now sK.next))) ∧
    ((∀ cb arg handle, beh cb arg handle = []) →
      (∀ ref ∈ st.m_work, (mapFind st.g_work_items ref).isSome = true) →
      ∃ sK, HRTWorkQueue.scan w clock beh st.m_work.length (HRTWorkQueue.scanStart clock st)
        = Run.done sK) := by
  refine ⟨?_, scan_quiet_done w clock beh st⟩
  intro fuel sK hscan
  obtain ⟨a1, _, _, a4, a5, a6, a7, a8⟩ := scan_next w clock beh hbeh fuel
    (HRTWorkQueue.scanStart clock st) sK hscan htyped (Nat.zero_le _)
  have h4 : sK.next ≤ 10000000 := a4
  have h5 : 0 < sK.next := a5 (show 0 < 10000000 by omega)
  have h8 : sK.next = 10000000 ∨
      ∃ p ref r, HRTWorkQueue.keptAt w clock beh (HRTWorkQueue.scanStart clock st) p ref r ∧
        sK.next = r := a8
  refine ⟨a1, h5, h4, a6, ?_, h8, ?_, ?_⟩
  · intro p hp
    exact a7 p (Nat.zero_le _) (by rw [a1]; exact hp)
  · intro hempty
    rcases h8 with h | ⟨p, ref, r, hk, _⟩
    · exact h
    · have hm := (a6 p ref r hk).1
      rw [hempty] at hm
      cases hm
  · unfold HRTWorkQueue.process
    simp only [hscan]

/-- C11, witness: the scan of `twoItemWorld` with callbacks that make no
`WorkMgr` call. Item 1001 is due; item 1002 is found not due at 600 µs with
550 µs remaining, so `next` is 550 and the deadline is the epoch plus
1150 µs. -/
theorem HRTWorkQueue_process_sleep_interval_witness :
    HRTWorkQueue.scan 32 exampleClock quietCallbacks 2
      (HRTWorkQueue.scanStart exampleClock twoItemWorld) = Run.done twoItemScanEnd ∧
    twoItemScanEnd.world.m_work = [1002] ∧ twoItemScanEnd.now = 600 ∧
    twoItemScanEnd.next = 550 ∧
    0 < twoItemScanEnd.next ∧ twoItemScanEnd.next ≤ 10000000 ∧
    HRTWorkQueue.process 32 exampleClock quietCallbacks 2 twoItemWorld =
      Run.done (twoItemScanEnd.world,
        offsetTimeToAbsoluteTime twoItemScanEnd.world.g_timestart
          (add64 twoItemScanEnd.now twoItemScanEnd.next)) ∧
    offsetTimeToAbsoluteTime twoItemScanEnd.world.g_timestart
        (add64 twoItemScanEnd.now twoItemScanEnd.next)
      = { tv_sec := 1700000000, tv_nsec := 1150000 } :=
  have hscan : HRTWorkQueue.scan 32 exampleClock quietCallbacks 2
      (HRTWorkQueue.scanStart exampleClock twoItemWorld) = Run.done twoItemScanEnd := by
    decide
  have h := (HRTWorkQueue_process_sleep_interval 32 exampleClock quietCallbacks twoItemWorld
    (fun _ _ _ _ _ _ hmem => absurd hmem (List.not_mem_nil _))
    (by unfold typedDelays; decide)).1 2 twoItemScanEnd hscan
  ⟨hscan, by decide, by decide, by decide, h.2.1, h.2.2.1, h.2.2.2.2.2.2.2, by decide⟩

end DriverFramework
